import Mathlib

/-!
Shallow embedding of the document-tree core of this repository
(`packages/outline/src/OutlineBlockNode.js`): block nodes with ordered
child-key lists, read traversals, `append`/`clear` mutators and the
text-normalization pass with selection rebasing.

Node registry, selection and transaction context are threaded as an explicit
`EditorState`.  JavaScript strings are modelled as `List Char` (text content)
resp. `String` (urls, only compared for equality); machine numbers are `Nat`.
Fallible code returns `Except OutlineError`.
-/

namespace Outline

/-- Node identifier: a stable process-unique handle, modelled as `Nat`. -/
abbrev NodeKey := Nat

/-- Data of a text node, the leaf contract consumed by `BlockNode`:
text content, style `flags`, optional `url`, and the categorical
merge-exclusion states `immutable` / `segmented`. -/
structure TextNodeData where
  key : NodeKey
  parent : Option NodeKey
  flags : Nat
  text : List Char
  url : Option String
  immutable : Bool
  segmented : Bool
deriving DecidableEq

/-- Data of a block node: ordered child-key list. -/
structure BlockNodeData where
  key : NodeKey
  parent : Option NodeKey
  flags : Nat
  children : List NodeKey
deriving DecidableEq

/-- A node is either a text node or a block node
(the two `instanceof` categories the source dispatches on). -/
inductive OutlineNode where
  | text (t : TextNodeData)
  | block (b : BlockNodeData)
deriving DecidableEq

/-- Key of a node (the stable `node.key` field). -/
def OutlineNode.key : OutlineNode → NodeKey
  | .text t => t.key
  | .block b => b.key

/-- Parent pointer of a node. -/
def OutlineNode.parent : OutlineNode → Option NodeKey
  | .text t => t.parent
  | .block b => b.parent

/-- Node with its parent pointer replaced (`writableNodeToAppend.parent = ...`). -/
def OutlineNode.withParent : OutlineNode → Option NodeKey → OutlineNode
  | .text t, p => .text { t with parent := p }
  | .block b, p => .block { b with parent := p }

/-- Stored child keys of a node (empty for text nodes). -/
def OutlineNode.childrenOf : OutlineNode → List NodeKey
  | .text _ => []
  | .block b => b.children

/-- Erase a key from a block node's child list, acting as the identity on
text nodes; lifted over `Option`. -/
def eraseMaybe (C : NodeKey) : Option OutlineNode → Option OutlineNode
  | some (.block p) => some (.block { p with children := p.children.erase C })
  | o => o

/-- The active selection: anchor / focus endpoints plus the dirty flag. -/
structure Selection where
  anchorKey : NodeKey
  anchorOffset : Nat
  focusKey : NodeKey
  focusOffset : Nat
  isDirty : Bool
deriving DecidableEq

/-- The state visible to the core during one edit transaction: the node
registry (`getNodeByKey`), the active selection (`getSelection`), the
transaction's `dirtySubTrees`, the read-only gate and a fresh-key counter
for node creation. -/
structure EditorState where
  nodeMap : NodeKey → Option OutlineNode
  selection : Option Selection
  dirtySubTrees : Finset NodeKey
  readOnly : Bool
  nextKey : NodeKey

/-- Registry lookup (`getNodeByKey`). -/
def getNodeByKey (st : EditorState) (k : NodeKey) : Option OutlineNode :=
  st.nodeMap k

/-- Write a node version into the registry under its key. -/
def setNode (st : EditorState) (k : NodeKey) (n : OutlineNode) : EditorState :=
  { st with nodeMap := fun k' => if k' = k then some n else st.nodeMap k' }

/-- Delete a node from the registry. -/
def delNode (st : EditorState) (k : NodeKey) : EditorState :=
  { st with nodeMap := fun k' => if k' = k then none else st.nodeMap k' }

/-- Apply an update to the active selection object (a mutation of the
selection in place, when one is present). -/
def updateSelection (st : EditorState) (f : Selection → Selection) : EditorState :=
  { st with selection := st.selection.map f }

/-- Error taxonomy: fatal invariant violations (`invariant(...)` in the
source) and the read-only gate (`shouldErrorOnReadOnly`). -/
inductive OutlineError where
  | invariantViolation (msg : String)
  | readOnlyViolation
deriving DecidableEq

/-! ## Read traversals -/

/-- The loop body of `getChildren`: resolve each stored child key through the
registry in order, pushing only keys that resolve (`childNode !== null`). -/
def resolveKeys (st : EditorState) : List NodeKey → List OutlineNode
  | [] => []
  | ck :: rest =>
    match st.nodeMap ck with
    | some n => n :: resolveKeys st rest
    | none => resolveKeys st rest

/-- `BlockNode.getChildren()`: read the child-key list from the latest
version of the block and resolve it. -/
def getChildren (st : EditorState) (key : NodeKey) : List OutlineNode :=
  match st.nodeMap key with
  | some (.block self) => resolveKeys st self.children
  | _ => []

/-- `BlockNode.getFirstChild()`: `null` when there are no children, else the
registry lookup of the first stored key. -/
def getFirstChild (st : EditorState) (key : NodeKey) : Option OutlineNode :=
  match st.nodeMap key with
  | some (.block self) =>
    match self.children with
    | [] => none
    | ck :: _ => st.nodeMap ck
  | _ => none

/-- `BlockNode.getLastChild()`: `null` when there are no children, else the
registry lookup of the last stored key. -/
def getLastChild (st : EditorState) (key : NodeKey) : Option OutlineNode :=
  match st.nodeMap key with
  | some (.block self) =>
    match self.children.getLast? with
    | some ck => st.nodeMap ck
    | none => none
  | _ => none

/-- `BlockNode.getFirstTextNode()`.  The source loop returns on the very
first resolved child: a text child is returned, and for a block child the
recursive result is returned unconditionally (even when it is `null`).
`fuel` bounds the recursion depth of the embedding (the JavaScript original
would not terminate on a cyclic registry). -/
def getFirstTextNode (st : EditorState) : Nat → NodeKey → Option TextNodeData
  | 0, _ => none
  | fuel + 1, key =>
    match getChildren st key with
    | [] => none
    | .text t :: _ => some t
    | .block b :: _ => getFirstTextNode st fuel b.key

/-- `BlockNode.getLastTextNode()`: as `getFirstTextNode` but iterating the
resolved children from the end. -/
def getLastTextNode (st : EditorState) : Nat → NodeKey → Option TextNodeData
  | 0, _ => none
  | fuel + 1, key =>
    match (getChildren st key).getLast? with
    | none => none
    | some (.text t) => some t
    | some (.block b) => getLastTextNode st fuel b.key

/-- Document-order text nodes of a resolved child list, descending into
block children through the callback `f`. -/
def collectTextList (f : NodeKey → List TextNodeData) : List OutlineNode → List TextNodeData
  | [] => []
  | .text t :: rest => t :: collectTextList f rest
  | .block b :: rest => f b.key ++ collectTextList f rest

/-- All text nodes of a block's subtree in document order (full depth-first
traversal).  Reference function used to state what a "first"/"last" text
node of the subtree is. -/
def collectTextNodes (st : EditorState) : Nat → NodeKey → List TextNodeData
  | 0, _ => []
  | fuel + 1, key => collectTextList (collectTextNodes st fuel) (getChildren st key)

/-! ## Collaborator mutators (not under `src/`) -/

/-- Modelled from the spec: `TextNode.spliceText(offset, delCount, text)`
(the source of `OutlineNode`/`TextNode` is not in this slice).  The merge
step of normalization relies on it appending `newText` at `offset` into the
latest version of the text node; failing on an unresolvable node is the
strict merge-time behaviour the spec's error-handling section requires. -/
def spliceText (st : EditorState) (key : NodeKey) (offset delCount : Nat)
    (newText : List Char) : Except OutlineError EditorState :=
  match st.nodeMap key with
  | some (.text t) =>
    .ok (setNode st key (.text { t with
      text := t.text.take offset ++ newText ++ t.text.drop (offset + delCount) }))
  | _ => .error (.invariantViolation "spliceText: node not found")

/-- Unlink a child key from its recorded parent's child list, tolerating an
absent key (splice after `indexOf` is a no-op at index -1), a missing
parent, or an unresolvable parent.  Shared step of `remove` and `append`. -/
def removeFromOldParent (st : EditorState) (childKey : NodeKey)
    (childNode : OutlineNode) : EditorState :=
  match childNode.parent with
  | some pk =>
    match st.nodeMap pk with
    | some (.block p) => setNode st pk (.block { p with children := p.children.erase childKey })
    | _ => st
  | none => st

/-- Modelled from the spec: `OutlineNode.remove()` (source not in this
slice): unlink the node's key from its parent's child list (tolerating a
missing or unresolvable parent) and delete its registry entry. -/
def removeNode (st : EditorState) (key : NodeKey) : Except OutlineError EditorState :=
  match st.nodeMap key with
  | none => .error (.invariantViolation "remove: node not found")
  | some n => .ok (delNode (removeFromOldParent st key n) key)

/-- Modelled from the spec: the node-construction collaborator
`createTextNode('')` used by `clear`: a fresh, empty, unstyled, detached
text node. -/
def newTextNode (key : NodeKey) : TextNodeData :=
  { key := key, parent := none, flags := 0, text := [], url := none,
    immutable := false, segmented := false }

/-- Modelled from the spec: `TextNode.select(anchorOffset, focusOffset)`
(source not in this slice): place both selection endpoints inside this text
node at the given offsets (mutating the active selection when present). -/
def selectNode (st : EditorState) (key : NodeKey) (aOff fOff : Nat) : EditorState :=
  updateSelection st (fun s =>
    { s with anchorKey := key, anchorOffset := aOff, focusKey := key, focusOffset := fOff })

/-! ## `combineAdjacentTextNodes` -/

/-- The merge loop of `combineAdjacentTextNodes` (`for (let i = 1; ...)`).
`a0k`/`f0k`/`a0off`/`f0off` are the selection fields captured once before
the loop; `mergeKey` is the surviving first node's key; `textLength` is the
accumulated text length of the surviving node.  Each source node rebases a
matching selection endpoint, is spliced into the surviving node at
`textLength`, and is removed.  After the loop the selection is marked dirty
when `restoreSelection` is set. -/
def combineLoop (a0k f0k : NodeKey) (a0off f0off : Nat) (restore : Bool)
    (mergeKey : NodeKey) :
    EditorState → Nat → List NodeKey → Except OutlineError EditorState
  | st, _, [] => .ok (if restore then updateSelection st (fun s => { s with isDirty := true }) else st)
  | st, textLength, tk :: rest =>
    match st.nodeMap tk with
    | some (.text tn) =>
      let siblingText := tn.text
      let st1 := if restore ∧ tk = a0k then
          updateSelection st (fun s => { s with anchorOffset := textLength + a0off, anchorKey := mergeKey })
        else st
      let st2 := if restore ∧ tk = f0k then
          updateSelection st1 (fun s => { s with focusOffset := textLength + f0off, focusKey := mergeKey })
        else st1
      match spliceText st2 mergeKey textLength 0 siblingText with
      | .error e => .error e
      | .ok st3 =>
        match removeNode st3 tk with
        | .error e => .error e
        | .ok st4 =>
          combineLoop a0k f0k a0off f0off restore mergeKey st4 (textLength + siblingText.length) rest
    | _ => .error (.invariantViolation "getTextContent: node not found")

/-- `combineAdjacentTextNodes(textNodes, restoreSelection)`: fails the
selection invariant when no selection is present (unconditionally, before
looking at `restoreSelection`), captures the selection endpoints, and merges
every node after the first into the first.  The caller only ever passes at
least two nodes; the empty-list branch is unreachable. -/
def combineAdjacentTextNodes (st : EditorState) (textNodes : List NodeKey)
    (restore : Bool) : Except OutlineError EditorState :=
  match st.selection with
  | none => .error (.invariantViolation "combineAdjacentTextNodes: selection not found")
  | some selection =>
    match textNodes with
    | [] => .error (.invariantViolation "combineAdjacentTextNodes: empty batch")
    | first :: rest =>
      match st.nodeMap first with
      | some (.text t0) =>
        combineLoop selection.anchorKey selection.focusKey
          selection.anchorOffset selection.focusOffset restore first
          st t0.text.length rest
      | _ => .error (.invariantViolation "getWritableNode: node not found")

/-! ## `normalizeTextNodes` -/

/-- The `instanceof TextNode && !isImmutable() && !isSegmented()` test of the
normalization scan. -/
def eligibleText : OutlineNode → Option TextNodeData
  | .text t => if !t.immutable && !t.segmented then some t else none
  | .block _ => none

/-- The scan loop of `normalizeTextNodes`: `toNormalize` is the pending
batch (keys), `lf` is `lastTextNodeFlags` (`none` = JavaScript `null`), `lu`
is `lastURL` (note the source conflates an unset `lastURL` with a node whose
`url` is `null`; and the ineligible branch resets `lastTextNodeFlags` but
not `lastURL`).  Each child is re-resolved (`children[i].getLatest()`) in
the current state. -/
def normalizeLoop (restore : Bool) :
    EditorState → Option Nat → Option String → List NodeKey → List NodeKey →
    Except OutlineError EditorState
  | st, _, _, toNormalize, [] =>
    if toNormalize.length > 1 then combineAdjacentTextNodes st toNormalize restore else .ok st
  | st, lf, lu, toNormalize, ck :: rest =>
    match st.nodeMap ck with
    | none => .error (.invariantViolation "getLatest: node not found")
    | some child =>
      match eligibleText child with
      | some t =>
        if (lf = none ∨ lf = some t.flags) ∧ (lu = none ∨ lu = t.url) then
          normalizeLoop restore st (some t.flags) t.url (toNormalize ++ [ck]) rest
        else
          match (if toNormalize.length > 1 then
              combineAdjacentTextNodes st toNormalize restore
            else .ok st) with
          | .error e => .error e
          | .ok st' => normalizeLoop restore st' (some t.flags) t.url [ck] rest
      | none =>
        match (if toNormalize.length > 1 then
            combineAdjacentTextNodes st toNormalize restore
          else .ok st) with
        | .error e => .error e
        | .ok st' => normalizeLoop restore st' none lu [] rest

/-- `BlockNode.normalizeTextNodes(restoreSelection)`: read-only guard, then
scan the snapshot of resolved children (each later re-resolved through the
registry by key), batching adjacent compatible text nodes and merging every
batch of length above one. -/
def normalizeTextNodes (st : EditorState) (restore : Bool) (key : NodeKey) :
    Except OutlineError EditorState :=
  if st.readOnly then .error .readOnlyViolation
  else normalizeLoop restore st none none [] ((getChildren st key).map OutlineNode.key)

/-! ## `append` and `clear` -/

/-- The trailing-empty-text check of `append`: if the current last child
resolves to a text node with empty content, add its key to the
transaction's dirty set. -/
def appendDirtyStep (st2 : EditorState) (children : List NodeKey) : EditorState :=
  match children.getLast? with
  | some lastChildKey =>
    match st2.nodeMap lastChildKey with
    | some (.text t) =>
      if t.text = [] then { st2 with dirtySubTrees := insert lastChildKey st2.dirtySubTrees }
      else st2
    | _ => st2
  | none => st2

/-- `BlockNode.append(nodeToAppend)`: read-only guard; remove the child's
key from its old parent's child list; set the child's parent to this block
(the writable child object is the registry's current version, so this
applies on top of the removal — hence the re-read of `childKey`); if the
(post-removal) last child is an empty text node mark it dirty; push the
child's key.  The `none` re-read branches are unreachable: the unlink step
never deletes registry entries. -/
def append (st : EditorState) (selfKey childKey : NodeKey) :
    Except OutlineError EditorState :=
  if st.readOnly then .error .readOnlyViolation
  else
    match st.nodeMap selfKey, st.nodeMap childKey with
    | some (.block _), some childNode =>
      let st1 := removeFromOldParent st childKey childNode
      let st2 :=
        match st1.nodeMap childKey with
        | some c1 => setNode st1 childKey (c1.withParent (some selfKey))
        | none => st1
      match st2.nodeMap selfKey with
      | some (.block self2) =>
        .ok (setNode (appendDirtyStep st2 self2.children) selfKey
          (.block { self2 with children := self2.children ++ [childKey] }))
      | _ => .error (.invariantViolation "append: block not found")
    | _, _ => .error (.invariantViolation "append: node not found")

/-- `children.forEach((child) => child.remove())` from `clear`. -/
def removeAll (st : EditorState) : List NodeKey → Except OutlineError EditorState
  | [] => .ok st
  | k :: ks =>
    match removeNode st k with
    | .error e => .error e
    | .ok st' => removeAll st' ks

/-- `BlockNode.clear(restoreSelection)`: read-only guard; remove every
resolved child; create one fresh empty text node, register and append it;
optionally select offset 0 inside it. -/
def clear (st : EditorState) (key : NodeKey) (restore : Bool) :
    Except OutlineError EditorState :=
  if st.readOnly then .error .readOnlyViolation
  else
    match st.nodeMap key with
    | some (.block _) =>
      match removeAll st ((getChildren st key).map OutlineNode.key) with
      | .error e => .error e
      | .ok st1 =>
        match append { setNode st1 st1.nextKey (.text (newTextNode st1.nextKey)) with
            nextKey := st1.nextKey + 1 } key st1.nextKey with
        | .error e => .error e
        | .ok st3 => .ok (if restore then selectNode st3 st1.nextKey 0 0 else st3)
    | _ => .error (.invariantViolation "clear: block not found")

/-! ## Observation helpers and concrete states -/

/-- Build a registry function from an association list. -/
def mapOf (entries : List (NodeKey × OutlineNode)) : NodeKey → Option OutlineNode :=
  fun k => (entries.find? (fun p => p.1 == k)).map Prod.snd

/-- Stored child-key list of a block. -/
def childKeysOf (st : EditorState) (k : NodeKey) : List NodeKey :=
  match st.nodeMap k with
  | some (.block b) => b.children
  | _ => []

/-- Text content of the node at a key, when it is a text node. -/
def textOf (st : EditorState) (k : NodeKey) : Option (List Char) :=
  match st.nodeMap k with
  | some (.text t) => some t.text
  | _ => none

/-- Url of the node at a key, when it is a text node. -/
def urlOf (st : EditorState) (k : NodeKey) : Option (Option String) :=
  match st.nodeMap k with
  | some (.text t) => some t.url
  | _ => none

/-- Child keys of the block, observed on the result of a fallible operation. -/
def resultChildKeys (r : Except OutlineError EditorState) (k : NodeKey) :
    Option (List NodeKey) :=
  r.toOption.map (fun s => childKeysOf s k)

/-- Text at a key, observed on the result of a fallible operation. -/
def resultText (r : Except OutlineError EditorState) (k : NodeKey) :
    Option (Option (List Char)) :=
  r.toOption.map (fun s => textOf s k)

/-- Selection observed on the result of a fallible operation. -/
def resultSelection (r : Except OutlineError EditorState) : Option (Option Selection) :=
  r.toOption.map (fun s => s.selection)

/-- Dirty set observed on the result of a fallible operation. -/
def resultDirty (r : Except OutlineError EditorState) : Option (Finset NodeKey) :=
  r.toOption.map (fun s => s.dirtySubTrees)

/-- The error of a failed operation, `none` on success. -/
def errMsgOf (r : Except OutlineError EditorState) : Option OutlineError :=
  match r with
  | .error e => some e
  | .ok _ => none

/-- A selection parked on a key unrelated to the examples. -/
def selDummy : Selection := ⟨99, 0, 99, 0, false⟩

/-- Plain mergeable text node (not immutable, not segmented). -/
def mkText (k : NodeKey) (p : Option NodeKey) (s : String) (f : Nat)
    (u : Option String) : OutlineNode :=
  .text { key := k, parent := p, flags := f, text := s.toList, url := u,
          immutable := false, segmented := false }

/-- Block 1 whose first child is an empty block and whose second child is a
text node: a subtree that contains a text node not reachable by
`getFirstTextNode`. -/
def stC1 : EditorState :=
  { nodeMap := mapOf [(1, .block ⟨1, none, 0, [2, 3]⟩),
      (2, .block ⟨2, some 1, 0, []⟩), (3, mkText 3 (some 1) "x" 0 none)],
    selection := some selDummy, dirtySubTrees := ∅, readOnly := false, nextKey := 10 }

/-- As `stC1` with the children reversed, for `getLastTextNode`. -/
def stC1b : EditorState :=
  { stC1 with nodeMap := mapOf [(1, .block ⟨1, none, 0, [3, 2]⟩),
      (2, .block ⟨2, some 1, 0, []⟩), (3, mkText 3 (some 1) "x" 0 none)] }

/-- Two adjacent text children with identical flags but a `none` url on the
first and `some "x"` on the second. -/
def stC2 : EditorState :=
  { nodeMap := mapOf [(1, .block ⟨1, none, 0, [2, 3]⟩),
      (2, mkText 2 (some 1) "a" 0 none), (3, mkText 3 (some 1) "b" 0 (some "x"))],
    selection := some selDummy, dirtySubTrees := ∅, readOnly := false, nextKey := 10 }

/-- The spec's merge example: children ab/flags 0, cd/flags 0, ef/flags 1. -/
def stC2ex : EditorState :=
  { nodeMap := mapOf [(1, .block ⟨1, none, 0, [2, 3, 4]⟩),
      (2, mkText 2 (some 1) "ab" 0 none), (3, mkText 3 (some 1) "cd" 0 none),
      (4, mkText 4 (some 1) "ef" 1 none)],
    selection := some selDummy, dirtySubTrees := ∅, readOnly := false, nextKey := 10 }

/-- The spec's selection-rebasing example: children ab and cd, selection
collapsed inside the second node at offset 1. -/
def stC3 : EditorState :=
  { nodeMap := mapOf [(1, .block ⟨1, none, 0, [2, 3]⟩),
      (2, mkText 2 (some 1) "ab" 0 none), (3, mkText 3 (some 1) "cd" 0 none)],
    selection := some ⟨3, 1, 3, 1, false⟩, dirtySubTrees := ∅, readOnly := false, nextKey := 10 }

/-- As `stC3` but with the focus parked on an unrelated key (99): only the
anchor's key matches a node being merged away. -/
def stC3b : EditorState :=
  { nodeMap := mapOf [(1, .block ⟨1, none, 0, [2, 3]⟩),
      (2, mkText 2 (some 1) "ab" 0 none), (3, mkText 3 (some 1) "cd" 0 none)],
    selection := some ⟨3, 1, 99, 5, false⟩, dirtySubTrees := ∅, readOnly := false, nextKey := 10 }

/-- Two blocks, a text child under the first; used to exercise `append`
reparenting. -/
def stC4 : EditorState :=
  { nodeMap := mapOf [(1, .block ⟨1, none, 0, [3]⟩), (2, .block ⟨2, none, 0, []⟩),
      (3, mkText 3 (some 1) "x" 0 none)],
    selection := some selDummy, dirtySubTrees := ∅, readOnly := false, nextKey := 10 }

/-- Block whose children are an empty text node followed by a non-empty text
node; re-appending the (non-empty) last child exerces the dirty marking. -/
def stC6 : EditorState :=
  { nodeMap := mapOf [(1, .block ⟨1, none, 0, [2, 3]⟩),
      (2, mkText 2 (some 1) "" 0 none), (3, mkText 3 (some 1) "x" 0 none)],
    selection := some selDummy, dirtySubTrees := ∅, readOnly := false, nextKey := 10 }

/-- Three text children with equal flags and urls `none`, `some "x"`,
`some "y"`: the first normalization merges the first two, the second
normalization merges again. -/
def stC7 : EditorState :=
  { nodeMap := mapOf [(1, .block ⟨1, none, 0, [2, 3, 4]⟩),
      (2, mkText 2 (some 1) "a" 0 none), (3, mkText 3 (some 1) "b" 0 (some "x")),
      (4, mkText 4 (some 1) "c" 0 (some "y"))],
    selection := some selDummy, dirtySubTrees := ∅, readOnly := false, nextKey := 10 }

/-- A mergeable pair of text children but no active selection. -/
def stC8 : EditorState :=
  { nodeMap := mapOf [(1, .block ⟨1, none, 0, [2, 3]⟩),
      (2, mkText 2 (some 1) "a" 0 none), (3, mkText 3 (some 1) "b" 0 none)],
    selection := none, dirtySubTrees := ∅, readOnly := false, nextKey := 10 }

/-- No active selection and no mergeable run (flags differ). -/
def stC8b : EditorState :=
  { stC8 with nodeMap := mapOf [(1, .block ⟨1, none, 0, [2, 3]⟩),
      (2, mkText 2 (some 1) "a" 0 none), (3, mkText 3 (some 1) "b" 1 none)] }

/-- Block whose first stored child key does not resolve while the second
does. -/
def stC9 : EditorState :=
  { nodeMap := mapOf [(1, .block ⟨1, none, 0, [5, 6]⟩), (6, mkText 6 (some 1) "y" 0 none)],
    selection := some selDummy, dirtySubTrees := ∅, readOnly := false, nextKey := 10 }

/-- As `stC9` with the children reversed: the last key does not resolve. -/
def stC9b : EditorState :=
  { stC9 with nodeMap := mapOf [(1, .block ⟨1, none, 0, [6, 5]⟩), (6, mkText 6 (some 1) "y" 0 none)] }

/-- Mergeable pair whose selection endpoints match no merged node. -/
def stC10 : EditorState :=
  { nodeMap := mapOf [(1, .block ⟨1, none, 0, [2, 3]⟩),
      (2, mkText 2 (some 1) "ab" 0 none), (3, mkText 3 (some 1) "cd" 0 none)],
    selection := some selDummy, dirtySubTrees := ∅, readOnly := false, nextKey := 10 }

/-! ## Pure reference model of normalization

State-free mirrors of the scan/merge pass, used to state what
`normalizeTextNodes` computes.  They operate on the resolved child nodes of
the block (document order). -/

/-- Surviving node of a merged batch: the first node with every later
batch-member's text concatenated on (batch order). -/
def mergedTextNode (t0 : TextNodeData) (rest : List TextNodeData) : TextNodeData :=
  { t0 with text := t0.text ++ (rest.map TextNodeData.text).flatten }

/-- Pure mirror of the selection effect of the merge loop: each source node
whose key matches a captured endpoint key rebases that endpoint to the
surviving node at the accumulated length; afterwards the selection is marked
dirty when `restore` is set. -/
def combineSelLoop (a0k f0k : NodeKey) (a0off f0off : Nat) (restore : Bool)
    (mergeKey : NodeKey) : Selection → Nat → List TextNodeData → Selection
  | sel, _, [] => if restore then { sel with isDirty := true } else sel
  | sel, textLength, t :: rest =>
    let sel1 := if restore ∧ t.key = a0k then
        { sel with anchorOffset := textLength + a0off, anchorKey := mergeKey }
      else sel
    let sel2 := if restore ∧ t.key = f0k then
        { sel1 with focusOffset := textLength + f0off, focusKey := mergeKey }
      else sel1
    combineSelLoop a0k f0k a0off f0off restore mergeKey sel2 (textLength + t.text.length) rest

/-- Selection after merging the batch `b0 :: rest` (endpoint keys and
offsets captured before the loop). -/
def specCombine (restore : Bool) (b0 : TextNodeData) (rest : List TextNodeData)
    (sel : Selection) : Selection :=
  combineSelLoop sel.anchorKey sel.focusKey sel.anchorOffset sel.focusOffset
    restore b0.key sel b0.text.length rest

/-- Closing a batch: a batch of length above one collapses to its merged
survivor and rebases the selection; shorter batches are emitted unchanged. -/
def specEmit (restore : Bool) (batch : List TextNodeData) (sel : Selection) :
    List OutlineNode × Selection :=
  match batch with
  | b0 :: b1 :: bs => ([.text (mergedTextNode b0 (b1 :: bs))], specCombine restore b0 (b1 :: bs) sel)
  | _ => (batch.map .text, sel)

/-- Pure mirror of the normalization scan over the resolved children:
returns the resulting child-node list and the resulting selection. -/
def specScan (restore : Bool) :
    Option Nat → Option String → List TextNodeData → Selection → List OutlineNode →
    List OutlineNode × Selection
  | _, _, batch, sel, [] => specEmit restore batch sel
  | lf, lu, batch, sel, n :: rest =>
    match eligibleText n with
    | some t =>
      if (lf = none ∨ lf = some t.flags) ∧ (lu = none ∨ lu = t.url) then
        specScan restore (some t.flags) t.url (batch ++ [t]) sel rest
      else
        let em := specEmit restore batch sel
        let out := specScan restore (some t.flags) t.url [t] em.2 rest
        (em.1 ++ out.1, out.2)
    | none =>
      let em := specEmit restore batch sel
      let out := specScan restore none lu [] em.2 rest
      (em.1 ++ n :: out.1, out.2)

/-- Pure mirror answering only: does the scan close some batch of length
above one (i.e. does normalization attempt a merge)?  `batchLen` is the
pending batch length. -/
def anyMergeScan : Option Nat → Option String → Nat → List OutlineNode → Bool
  | _, _, batchLen, [] => decide (batchLen > 1)
  | lf, lu, batchLen, n :: rest =>
    match eligibleText n with
    | some t =>
      if (lf = none ∨ lf = some t.flags) ∧ (lu = none ∨ lu = t.url) then
        anyMergeScan (some t.flags) t.url (batchLen + 1) rest
      else
        decide (batchLen > 1) || anyMergeScan (some t.flags) t.url 1 rest
    | none =>
      decide (batchLen > 1) || anyMergeScan none lu 0 rest

/-- No-adjacent-merge predicate on a child list: two consecutive eligible
text nodes never carry equal flags (with a uniform url this makes a rescan
merge-free). -/
def adjOK (a b : OutlineNode) : Prop :=
  ∀ ta tb, eligibleText a = some ta → eligibleText b = some tb → ta.flags ≠ tb.flags

/-! ## Well-formedness -/

/-- Tree consistency (the spec's structural invariant): every block's child
list is duplicate-free, and every resolvable child of a block records that
block as its parent. -/
def ConsistentParents (st : EditorState) : Prop :=
  ∀ p bp, st.nodeMap p = some (OutlineNode.block bp) →
    bp.children.Nodup ∧ ∀ ck ∈ bp.children, ∀ n, st.nodeMap ck = some n → n.parent = some p

/-- Local well-formedness of one block, as needed by the normalization
characterization: the block resolves, its child list is duplicate-free and
does not contain the block itself, every child key resolves to a node
carrying that key, and every text child's parent is this block. -/
def WFBlock (st : EditorState) (key : NodeKey) (b : BlockNodeData) : Prop :=
  st.nodeMap key = some (OutlineNode.block b) ∧
  b.children.Nodup ∧ key ∉ b.children ∧
  (∀ ck ∈ b.children, ∀ n, st.nodeMap ck = some n → n.key = ck) ∧
  (∀ ck ∈ b.children, (st.nodeMap ck).isSome) ∧
  (∀ ck ∈ b.children, ∀ t, st.nodeMap ck = some (OutlineNode.text t) → t.parent = some key)

/-! ## Counterexample theorems -/

/-- Claim C1, counterexample.  In `stC1` the block's subtree contains a text
node (under the second child), but `getFirstTextNode` returns `none`
because the source returns the recursive result of the first block child
unconditionally; symmetrically for `getLastTextNode` on the reversed
children. -/
theorem C1_counterexample :
    (getFirstTextNode stC1 10 1 = none ∧ collectTextNodes stC1 10 1 ≠ []) ∧
    (getLastTextNode stC1b 10 1 = none ∧ collectTextNodes stC1b 10 1 ≠ []) := by
  decide

/-- Claim C2, counterexample.  Two adjacent text children share flags but
have different urls (`none` vs `some "x"`): the claim says the second closes
the batch and no merge happens, yet `normalizeTextNodes` merges them (the
`lastURL === null` test conflates an unset reference with a `null` url). -/
theorem C2_counterexample :
    childKeysOf stC2 1 = [2, 3] ∧ urlOf stC2 2 = some none ∧
    urlOf stC2 3 = some (some "x") ∧
    resultChildKeys (normalizeTextNodes stC2 false 1) 1 = some [2] ∧
    resultText (normalizeTextNodes stC2 false 1) 2 = some (some ['a', 'b']) := by
  decide

/-- Claim C6, counterexample.  Re-appending the block's own (non-empty,
text) last child: before the append the last child is node 3 with text "x",
so the claim says nothing is marked dirty; but the code removes node 3 from
the child list first, finds the empty text node 2 as last child, and marks
node 2 dirty. -/
theorem C6_counterexample :
    childKeysOf stC6 1 = [2, 3] ∧ textOf stC6 3 = some ['x'] ∧
    stC6.dirtySubTrees = ∅ ∧
    resultDirty (append stC6 1 3) = some {2} ∧
    resultChildKeys (append stC6 1 3) 1 = some [2, 3] := by
  decide

/-- Claim C7, counterexample.  Children with urls `none`, `some "x"`,
`some "y"`: the first run merges the first two (survivor keeps url `none`),
the second run then merges the survivor with the third child, so the child
list changes again on the second run. -/
theorem C7_counterexample :
    resultChildKeys (normalizeTextNodes stC7 false 1) 1 = some [2, 4] ∧
    resultChildKeys ((normalizeTextNodes stC7 false 1).bind
      (fun s => normalizeTextNodes s false 1)) 1 = some [2] ∧
    ([2, 4] : List NodeKey) ≠ [2] := by
  decide

/-- Claim C8, counterexample.  With no active selection and
`restoreSelection` unset, a merge is still attempted and fails the selection
invariant: merging is not selection-aware here, yet a selection is
required. -/
theorem C8_counterexample :
    stC8.selection = none ∧
    errMsgOf (normalizeTextNodes stC8 false 1) =
      some (.invariantViolation "combineAdjacentTextNodes: selection not found") := by
  decide

/-- Claim C9, counterexample.  A block whose first stored key dangles:
`getChildren` skips it (one live child remains), but `getFirstChild`
resolves only the literal first key and yields `none` instead of treating
the dangling key as removed; symmetrically for `getLastChild`. -/
theorem C9_counterexample :
    getFirstChild stC9 1 = none ∧ (getChildren stC9 1).length = 1 ∧
    getFirstChild stC9 1 ≠ (getChildren stC9 1).head? ∧
    getLastChild stC9b 1 = none ∧ (getChildren stC9b 1).length = 1 := by
  decide

/-! ## State-access lemmas -/

theorem setNode_nodeMap (st : EditorState) (k : NodeKey) (n : OutlineNode) (k' : NodeKey) :
    (setNode st k n).nodeMap k' = if k' = k then some n else st.nodeMap k' := rfl

@[simp]
theorem setNode_nodeMap_self (st : EditorState) (k : NodeKey) (n : OutlineNode) :
    (setNode st k n).nodeMap k = some n := by
  rw [setNode_nodeMap, if_pos rfl]

theorem setNode_nodeMap_ne (st : EditorState) (k : NodeKey) (n : OutlineNode)
    (k' : NodeKey) (h : k' ≠ k) : (setNode st k n).nodeMap k' = st.nodeMap k' := by
  rw [setNode_nodeMap, if_neg h]

@[simp]
theorem setNode_selection (st : EditorState) (k : NodeKey) (n : OutlineNode) :
    (setNode st k n).selection = st.selection := rfl

@[simp]
theorem setNode_dirtySubTrees (st : EditorState) (k : NodeKey) (n : OutlineNode) :
    (setNode st k n).dirtySubTrees = st.dirtySubTrees := rfl

@[simp]
theorem setNode_readOnly (st : EditorState) (k : NodeKey) (n : OutlineNode) :
    (setNode st k n).readOnly = st.readOnly := rfl

@[simp]
theorem setNode_nextKey (st : EditorState) (k : NodeKey) (n : OutlineNode) :
    (setNode st k n).nextKey = st.nextKey := rfl

@[simp]
theorem delNode_nodeMap (st : EditorState) (k : NodeKey) (k' : NodeKey) :
    (delNode st k).nodeMap k' = if k' = k then none else st.nodeMap k' := rfl

@[simp]
theorem delNode_selection (st : EditorState) (k : NodeKey) :
    (delNode st k).selection = st.selection := rfl

@[simp]
theorem delNode_dirtySubTrees (st : EditorState) (k : NodeKey) :
    (delNode st k).dirtySubTrees = st.dirtySubTrees := rfl

@[simp]
theorem delNode_readOnly (st : EditorState) (k : NodeKey) :
    (delNode st k).readOnly = st.readOnly := rfl

@[simp]
theorem delNode_nextKey (st : EditorState) (k : NodeKey) :
    (delNode st k).nextKey = st.nextKey := rfl

@[simp]
theorem updateSelection_nodeMap (st : EditorState) (f : Selection → Selection) :
    (updateSelection st f).nodeMap = st.nodeMap := rfl

@[simp]
theorem updateSelection_selection (st : EditorState) (f : Selection → Selection) :
    (updateSelection st f).selection = st.selection.map f := rfl

@[simp]
theorem updateSelection_dirtySubTrees (st : EditorState) (f : Selection → Selection) :
    (updateSelection st f).dirtySubTrees = st.dirtySubTrees := rfl

@[simp]
theorem updateSelection_readOnly (st : EditorState) (f : Selection → Selection) :
    (updateSelection st f).readOnly = st.readOnly := rfl

@[simp]
theorem updateSelection_nextKey (st : EditorState) (f : Selection → Selection) :
    (updateSelection st f).nextKey = st.nextKey := rfl

@[simp]
theorem removeFromOldParent_selection (st : EditorState) (C : NodeKey) (cn : OutlineNode) :
    (removeFromOldParent st C cn).selection = st.selection := by
  unfold removeFromOldParent
  split
  · split <;> rfl
  · rfl

@[simp]
theorem removeFromOldParent_dirtySubTrees (st : EditorState) (C : NodeKey) (cn : OutlineNode) :
    (removeFromOldParent st C cn).dirtySubTrees = st.dirtySubTrees := by
  unfold removeFromOldParent
  split
  · split <;> rfl
  · rfl

@[simp]
theorem removeFromOldParent_readOnly (st : EditorState) (C : NodeKey) (cn : OutlineNode) :
    (removeFromOldParent st C cn).readOnly = st.readOnly := by
  unfold removeFromOldParent
  split
  · split <;> rfl
  · rfl

@[simp]
theorem removeFromOldParent_nextKey (st : EditorState) (C : NodeKey) (cn : OutlineNode) :
    (removeFromOldParent st C cn).nextKey = st.nextKey := by
  unfold removeFromOldParent
  split
  · split <;> rfl
  · rfl

/-- The unlink step either leaves the state unchanged (no parent, or a
parent that does not resolve to a block) or splices the child key out of
the resolved parent block. -/
theorem removeFromOldParent_cases (st : EditorState) (C : NodeKey) (cn : OutlineNode) :
    (removeFromOldParent st C cn = st ∧
      ∀ pk, cn.parent = some pk → ∀ p, st.nodeMap pk ≠ some (OutlineNode.block p)) ∨
    ∃ pk p, cn.parent = some pk ∧ st.nodeMap pk = some (OutlineNode.block p) ∧
      removeFromOldParent st C cn =
        setNode st pk (.block { p with children := p.children.erase C }) := by
  cases hp : cn.parent with
  | none => exact .inl ⟨by simp [removeFromOldParent, hp], by simp [hp]⟩
  | some pk =>
    cases hq : st.nodeMap pk with
    | none =>
      refine .inl ⟨by simp [removeFromOldParent, hp, hq], ?_⟩
      intro pk' hpk' p hcontra
      rw [Option.some.injEq] at hpk'
      subst hpk'
      rw [hq] at hcontra
      cases hcontra
    | some n =>
      cases n with
      | text t =>
        refine .inl ⟨by simp [removeFromOldParent, hp, hq], ?_⟩
        intro pk' hpk' p hcontra
        rw [Option.some.injEq] at hpk'
        subst hpk'
        rw [hq] at hcontra
        cases hcontra
      | block p => exact .inr ⟨pk, p, rfl, hq, by simp [removeFromOldParent, hp, hq]⟩

@[simp]
theorem appendDirtyStep_nodeMap (st2 : EditorState) (children : List NodeKey) :
    (appendDirtyStep st2 children).nodeMap = st2.nodeMap := by
  unfold appendDirtyStep
  split
  · split
    · split <;> rfl
    · rfl
  · rfl

@[simp]
theorem appendDirtyStep_selection (st2 : EditorState) (children : List NodeKey) :
    (appendDirtyStep st2 children).selection = st2.selection := by
  unfold appendDirtyStep
  split
  · split
    · split <;> rfl
    · rfl
  · rfl

@[simp]
theorem appendDirtyStep_readOnly (st2 : EditorState) (children : List NodeKey) :
    (appendDirtyStep st2 children).readOnly = st2.readOnly := by
  unfold appendDirtyStep
  split
  · split
    · split <;> rfl
    · rfl
  · rfl

@[simp]
theorem appendDirtyStep_nextKey (st2 : EditorState) (children : List NodeKey) :
    (appendDirtyStep st2 children).nextKey = st2.nextKey := by
  unfold appendDirtyStep
  split
  · split
    · split <;> rfl
    · rfl
  · rfl

/-- Membership in the dirty set after the trailing-empty-text check: the
last child's key joins exactly when it resolves to an empty text node. -/
theorem appendDirtyStep_mem_dirty (st2 : EditorState) (children : List NodeKey) (k : NodeKey) :
    k ∈ (appendDirtyStep st2 children).dirtySubTrees ↔
      k ∈ st2.dirtySubTrees ∨
        (children.getLast? = some k ∧
          ∃ t, st2.nodeMap k = some (OutlineNode.text t) ∧ t.text = []) := by
  cases hl : children.getLast? with
  | none => simp [appendDirtyStep, hl]
  | some lk =>
    cases hq : st2.nodeMap lk with
    | none =>
      simp only [appendDirtyStep, hl, hq, Option.some.injEq]
      constructor
      · exact fun h => .inl h
      · rintro (h | ⟨rfl, t, ht, _⟩)
        · exact h
        · rw [hq] at ht; cases ht
    | some n =>
      cases n with
      | block p =>
        simp only [appendDirtyStep, hl, hq, Option.some.injEq]
        constructor
        · exact fun h => .inl h
        · rintro (h | ⟨rfl, t, ht, _⟩)
          · exact h
          · rw [hq] at ht; cases ht
      | text t =>
        by_cases he : t.text = []
        · simp only [appendDirtyStep, hl, hq]
          rw [if_pos he]
          simp only [Finset.mem_insert, Option.some.injEq]
          constructor
          · rintro (rfl | h)
            · exact .inr ⟨rfl, t, hq, he⟩
            · exact .inl h
          · rintro (h | ⟨rfl, _, _, _⟩)
            · exact .inr h
            · exact .inl rfl
        · simp only [appendDirtyStep, hl, hq]
          rw [if_neg he]
          simp only [Option.some.injEq]
          constructor
          · exact fun h => .inl h
          · rintro (h | ⟨rfl, t', ht', he'⟩)
            · exact h
            · rw [hq] at ht'
              rw [Option.some.injEq, OutlineNode.text.injEq] at ht'
              subst ht'
              exact absurd he' he

/-- The `getChildren` resolution loop is `List.filterMap` over the registry. -/
theorem resolveKeys_eq_filterMap (st : EditorState) (l : List NodeKey) :
    resolveKeys st l = l.filterMap st.nodeMap := by
  induction l with
  | nil => rfl
  | cons ck rest ih =>
    simp only [resolveKeys, List.filterMap_cons]
    cases st.nodeMap ck <;> simp [ih]

/-- Replacing a node's parent pointer neither creates nor destroys an
empty text node. -/
theorem exists_empty_text_withParent (n : OutlineNode) (pk : Option NodeKey) :
    (∃ t, n.withParent pk = OutlineNode.text t ∧ t.text = []) ↔
      (∃ t, n = OutlineNode.text t ∧ t.text = []) := by
  cases n <;> simp [OutlineNode.withParent]

@[simp]
theorem OutlineNode.parent_withParent (n : OutlineNode) (p : Option NodeKey) :
    (n.withParent p).parent = p := by
  cases n <;> rfl

@[simp]
theorem OutlineNode.childrenOf_withParent (n : OutlineNode) (p : Option NodeKey) :
    (n.withParent p).childrenOf = n.childrenOf := by
  cases n <;> rfl

/-- `eraseMaybe` does nothing on a value known not to be a block. -/
theorem eraseMaybe_eq_self (C : NodeKey) (o : Option OutlineNode)
    (h : ∀ p, o ≠ some (OutlineNode.block p)) : eraseMaybe C o = o := by
  match o with
  | none => rfl
  | some (.text t) => rfl
  | some (.block p) => exact absurd rfl (h p)

/-- Writing a node version transfers the "this key holds an empty text
node" condition whenever the written value and the overwritten entry agree
on that condition. -/
theorem empty_text_transfer (st : EditorState) (K : NodeKey) (v : OutlineNode) (k : NodeKey)
    (hequiv : (∃ t, v = OutlineNode.text t ∧ t.text = []) ↔
      (∃ t, st.nodeMap K = some (OutlineNode.text t) ∧ t.text = [])) :
    ((∃ t, (setNode st K v).nodeMap k = some (OutlineNode.text t) ∧ t.text = []) ↔
      (∃ t, st.nodeMap k = some (OutlineNode.text t) ∧ t.text = [])) := by
  by_cases hk : k = K
  · subst hk
    rw [setNode_nodeMap_self]
    simpa using hequiv
  · rw [setNode_nodeMap_ne _ _ _ _ hk]

/-! ## Claims C6 and C4: `append` characterization -/

/-- Full characterization of a successful `append st B C` on resolvable
nodes: the final version of `B` carries the (post-unlink) children with `C`
pushed at the end; `C`'s final version has parent `B` and (when it is a
block) its children unchanged except that a self-parenting child drops `C`;
every other key is untouched except `C`'s old parent, whose child list
drops `C`; the dirty set gains exactly the key of the post-unlink last
child when that child is an empty text node; selection, read-only gate and
key counter are untouched. -/
theorem append_ok_char
    (st : EditorState) (B C : NodeKey) (b : BlockNodeData) (cn : OutlineNode)
    (hro : st.readOnly = false)
    (hB : st.nodeMap B = some (OutlineNode.block b))
    (hC : st.nodeMap C = some cn) :
    ∃ st' bf, append st B C = Except.ok st' ∧
      st'.nodeMap B = some (OutlineNode.block bf) ∧
      bf.children = (if cn.parent = some B then b.children.erase C else b.children) ++ [C] ∧
      (C = B → bf.parent = some B) ∧
      (C ≠ B → ∃ cnA, st'.nodeMap C = some cnA ∧ cnA.parent = some B ∧
        cnA.childrenOf = (if cn.parent = some C then cn.childrenOf.erase C else cn.childrenOf) ∧
        (∀ t, cn = OutlineNode.text t → cnA = OutlineNode.text { t with parent := some B })) ∧
      (∀ k, k ≠ B → k ≠ C → st'.nodeMap k =
        (if cn.parent = some k then eraseMaybe C (st.nodeMap k) else st.nodeMap k)) ∧
      (∀ k, k ∈ st'.dirtySubTrees ↔ k ∈ st.dirtySubTrees ∨
        ((if cn.parent = some B then b.children.erase C else b.children).getLast? = some k ∧
          ∃ t, st.nodeMap k = some (OutlineNode.text t) ∧ t.text = [])) ∧
      st'.selection = st.selection ∧ st'.readOnly = st.readOnly ∧ st'.nextKey = st.nextKey := by
  have hifro : ¬(st.readOnly = true) := by simp [hro]
  rcases removeFromOldParent_cases st C cn with ⟨heq, hno⟩ | ⟨pk, p, hp, hq, heq⟩
  · -- no unlink happened: `cn.parent` has no resolvable block
    by_cases hCB : C = B
    · -- degenerate self-append: the child is the block itself
      subst hCB
      rw [hB, Option.some.injEq] at hC
      subst hC
      have hnotB : ¬((OutlineNode.block b).parent = some C) := fun h => hno C h b hB
      simp only [append]
      rw [if_neg hifro]
      simp only [hB, heq, OutlineNode.withParent, setNode_nodeMap_self]
      refine ⟨_, _, rfl, setNode_nodeMap_self _ _ _, ?_, fun _ => rfl,
        fun h => absurd rfl h, ?_, ?_, by simp, by simp, by simp⟩
      · rw [if_neg hnotB]
      · intro k hk _
        rw [setNode_nodeMap_ne _ _ _ _ hk, appendDirtyStep_nodeMap,
          setNode_nodeMap_ne _ _ _ _ hk]
        by_cases hpar : (OutlineNode.block b).parent = some k
        · rw [if_pos hpar, eraseMaybe_eq_self C _ (hno k hpar)]
        · rw [if_neg hpar]
      · intro k
        rw [setNode_dirtySubTrees, appendDirtyStep_mem_dirty, setNode_dirtySubTrees,
          if_neg hnotB]
        exact or_congr_right (and_congr_right fun _ =>
          empty_text_transfer st C (OutlineNode.block { b with parent := some C }) k
            (by simp [hB]))
    · -- child distinct from the target block
      have hnotB : ¬(cn.parent = some B) := fun h => hno B h b hB
      simp only [append]
      rw [if_neg hifro]
      simp only [hB, hC, heq]
      rw [setNode_nodeMap_ne _ _ _ _ (Ne.symm hCB)]
      simp only [hB]
      refine ⟨_, _, rfl, setNode_nodeMap_self _ _ _, ?_, fun h => absurd h hCB,
        fun _ => ?_, ?_, ?_, by simp, by simp, by simp⟩
      · rw [if_neg hnotB]
      · refine ⟨cn.withParent (some B), ?_, by simp, ?_, fun t ht => by rw [ht]; rfl⟩
        · rw [setNode_nodeMap_ne _ _ _ _ hCB, appendDirtyStep_nodeMap, setNode_nodeMap_self]
        · rw [OutlineNode.childrenOf_withParent]
          by_cases hpc : cn.parent = some C
          · rw [if_pos hpc]
            cases cn with
            | text t => rfl
            | block q => exact absurd hC (hno C hpc q)
          · rw [if_neg hpc]
      · intro k hkB hkC
        rw [setNode_nodeMap_ne _ _ _ _ hkB, appendDirtyStep_nodeMap,
          setNode_nodeMap_ne _ _ _ _ hkC]
        by_cases hpar : cn.parent = some k
        · rw [if_pos hpar, eraseMaybe_eq_self C _ (hno k hpar)]
        · rw [if_neg hpar]
      · intro k
        rw [setNode_dirtySubTrees, appendDirtyStep_mem_dirty, setNode_dirtySubTrees,
          if_neg hnotB]
        exact or_congr_right (and_congr_right fun _ =>
          empty_text_transfer st C (cn.withParent (some B)) k
            (by rw [hC]; simpa using exists_empty_text_withParent cn (some B)))
  · -- the unlink spliced `C` out of block `p` at key `pk`
    by_cases hCpk : C = pk
    · subst hCpk
      -- the child is its own recorded parent; `cn` is the block `p`
      rw [hC, Option.some.injEq] at hq
      subst hq
      by_cases hCB : C = B
      · -- degenerate: B = C = pk
        subst hCB
        have hpb : b = p := by
          rw [hB, Option.some.injEq, OutlineNode.block.injEq] at hC
          exact hC
        subst hpb
        have hmid : (if (OutlineNode.block b).parent = some C
            then b.children.erase C else b.children) = b.children.erase C := if_pos hp
        simp only [append]
        rw [if_neg hifro]
        simp only [hB, heq, setNode_nodeMap_self, OutlineNode.withParent]
        refine ⟨_, _, rfl, setNode_nodeMap_self _ _ _, ?_, fun _ => rfl,
          fun h => absurd rfl h, ?_, ?_, by simp, by simp, by simp⟩
        · rw [hmid]
        · intro k hk _
          rw [setNode_nodeMap_ne _ _ _ _ hk, appendDirtyStep_nodeMap,
            setNode_nodeMap_ne _ _ _ _ hk, setNode_nodeMap_ne _ _ _ _ hk]
          have hcond : ¬((OutlineNode.block b).parent = some k) := by
            rw [hp]
            exact fun h => hk (Option.some_inj.1 h).symm
          rw [if_neg hcond]
        · intro k
          rw [setNode_dirtySubTrees, appendDirtyStep_mem_dirty, setNode_dirtySubTrees,
            setNode_dirtySubTrees, hmid]
          exact or_congr_right (and_congr_right fun _ =>
            Iff.trans (empty_text_transfer _ _ _ _ (by simp))
              (empty_text_transfer _ _ _ _ (by simp [hB])))
      · -- C = pk, C distinct from B
        have hmid : (if (OutlineNode.block p).parent = some B
            then b.children.erase C else b.children) = b.children := by
          have hcond : ¬((OutlineNode.block p).parent = some B) := by
            rw [hp]
            exact fun h => hCB (Option.some_inj.1 h)
          rw [if_neg hcond]
        simp only [append]
        rw [if_neg hifro]
        simp only [hB, hC, heq, setNode_nodeMap_self, OutlineNode.withParent]
        rw [setNode_nodeMap_ne _ _ _ _ (Ne.symm hCB), setNode_nodeMap_ne _ _ _ _ (Ne.symm hCB)]
        simp only [hB]
        refine ⟨_, _, rfl, setNode_nodeMap_self _ _ _, ?_, fun h => absurd h hCB,
          fun _ => ?_, ?_, ?_, by simp, by simp, by simp⟩
        · rw [hmid]
        · refine ⟨OutlineNode.block { p with children := p.children.erase C, parent := some B },
            ?_, rfl, ?_, fun t ht => absurd ht (by simp)⟩
          · rw [setNode_nodeMap_ne _ _ _ _ hCB, appendDirtyStep_nodeMap, setNode_nodeMap_self]
          · have hmid2 : (if (OutlineNode.block p).parent = some C
                then (OutlineNode.block p).childrenOf.erase C
                else (OutlineNode.block p).childrenOf) =
                (OutlineNode.block p).childrenOf.erase C := if_pos hp
            rw [hmid2]
            rfl
        · intro k hkB hkC
          rw [setNode_nodeMap_ne _ _ _ _ hkB, appendDirtyStep_nodeMap,
            setNode_nodeMap_ne _ _ _ _ hkC, setNode_nodeMap_ne _ _ _ _ hkC]
          have hcond : ¬((OutlineNode.block p).parent = some k) := by
            rw [hp]
            exact fun h => hkC (Option.some_inj.1 h).symm
          rw [if_neg hcond]
        · intro k
          rw [setNode_dirtySubTrees, appendDirtyStep_mem_dirty, setNode_dirtySubTrees,
            setNode_dirtySubTrees, hmid]
          exact or_congr_right (and_congr_right fun _ =>
            Iff.trans (empty_text_transfer _ _ _ _ (by simp))
              (empty_text_transfer _ _ _ _ (by simp [hC])))
    · -- the child's recorded parent is a different key `pk`
      by_cases hCB : C = B
      · -- B = C, foreign parent `pk`
        subst hCB
        rw [hB, Option.some.injEq] at hC
        subst hC
        have hmid : (if (OutlineNode.block b).parent = some C
            then b.children.erase C else b.children) = b.children := by
          have hcond : ¬((OutlineNode.block b).parent = some C) := by
            rw [hp]
            exact fun h => hCpk (Option.some_inj.1 h).symm
          rw [if_neg hcond]
        simp only [append]
        rw [if_neg hifro]
        simp only [hB, heq]
        rw [setNode_nodeMap_ne _ _ _ _ hCpk]
        simp only [hB, OutlineNode.withParent, setNode_nodeMap_self]
        refine ⟨_, _, rfl, setNode_nodeMap_self _ _ _, ?_, fun _ => rfl,
          fun h => absurd rfl h, ?_, ?_, by simp, by simp, by simp⟩
        · rw [hmid]
        · intro k hk _
          rw [setNode_nodeMap_ne _ _ _ _ hk, appendDirtyStep_nodeMap,
            setNode_nodeMap_ne _ _ _ _ hk]
          by_cases hkpk : k = pk
          · subst hkpk
            rw [setNode_nodeMap_self, if_pos hp, hq]
            rfl
          · rw [setNode_nodeMap_ne _ _ _ _ hkpk]
            have hcond : ¬((OutlineNode.block b).parent = some k) := by
              rw [hp]
              exact fun h => hkpk (Option.some_inj.1 h).symm
            rw [if_neg hcond]
        · intro k
          rw [setNode_dirtySubTrees, appendDirtyStep_mem_dirty, setNode_dirtySubTrees,
            setNode_dirtySubTrees, hmid]
          refine or_congr_right (and_congr_right fun _ =>
            Iff.trans (empty_text_transfer _ _ _ _ ?_) (empty_text_transfer _ _ _ _ (by simp [hq])))
          rw [setNode_nodeMap_ne _ _ _ _ hCpk]
          simp [hB]
      · by_cases hBpk : B = pk
        · -- the old parent is the target block itself
          subst hBpk
          have hpb : b = p := by
            rw [hB, Option.some.injEq, OutlineNode.block.injEq] at hq
            exact hq
          subst hpb
          have hmid : (if cn.parent = some B then b.children.erase C else b.children) =
              b.children.erase C := if_pos hp
          simp only [append]
          rw [if_neg hifro]
          simp only [hB, hC, heq]
          rw [setNode_nodeMap_ne _ _ _ _ hCB]
          simp only [hC]
          rw [setNode_nodeMap_ne _ _ _ _ (Ne.symm hCB)]
          simp only [setNode_nodeMap_self]
          refine ⟨_, _, rfl, setNode_nodeMap_self _ _ _, ?_, fun h => absurd h hCB,
            fun _ => ?_, ?_, ?_, by simp, by simp, by simp⟩
          · rw [hmid]
          · refine ⟨cn.withParent (some B), ?_, by simp, ?_, fun t ht => by rw [ht]; rfl⟩
            · rw [setNode_nodeMap_ne _ _ _ _ hCB, appendDirtyStep_nodeMap, setNode_nodeMap_self]
            · rw [OutlineNode.childrenOf_withParent]
              have hcond : ¬(cn.parent = some C) := by
                rw [hp]
                exact fun h => hCB (Option.some_inj.1 h).symm
              rw [if_neg hcond]
          · intro k hkB hkC
            rw [setNode_nodeMap_ne _ _ _ _ hkB, appendDirtyStep_nodeMap,
              setNode_nodeMap_ne _ _ _ _ hkC, setNode_nodeMap_ne _ _ _ _ hkB]
            have hcond : ¬(cn.parent = some k) := by
              rw [hp]
              exact fun h => hkB (Option.some_inj.1 h).symm
            rw [if_neg hcond]
          · intro k
            rw [setNode_dirtySubTrees, appendDirtyStep_mem_dirty, setNode_dirtySubTrees,
              setNode_dirtySubTrees, hmid]
            refine or_congr_right (and_congr_right fun _ =>
              Iff.trans (empty_text_transfer _ _ _ _ ?_) (empty_text_transfer _ _ _ _ (by simp [hB])))
            rw [setNode_nodeMap_ne _ _ _ _ hCB, hC]
            simpa using exists_empty_text_withParent cn (some B)
        · -- fully generic: B, C and pk pairwise distinct
          have hmid : (if cn.parent = some B then b.children.erase C else b.children) =
              b.children := by
            have hcond : ¬(cn.parent = some B) := by
              rw [hp]
              exact fun h => hBpk (Option.some_inj.1 h).symm
            rw [if_neg hcond]
          simp only [append]
          rw [if_neg hifro]
          simp only [hB, hC, heq]
          rw [setNode_nodeMap_ne _ _ _ _ hCpk]
          simp only [hC]
          rw [setNode_nodeMap_ne _ _ _ _ (Ne.symm hCB), setNode_nodeMap_ne _ _ _ _ hBpk]
          simp only [hB]
          refine ⟨_, _, rfl, setNode_nodeMap_self _ _ _, ?_, fun h => absurd h hCB,
            fun _ => ?_, ?_, ?_, by simp, by simp, by simp⟩
          · rw [hmid]
          · refine ⟨cn.withParent (some B), ?_, by simp, ?_, fun t ht => by rw [ht]; rfl⟩
            · rw [setNode_nodeMap_ne _ _ _ _ hCB, appendDirtyStep_nodeMap, setNode_nodeMap_self]
            · rw [OutlineNode.childrenOf_withParent]
              have hcond : ¬(cn.parent = some C) := by
                rw [hp]
                exact fun h => hCpk (Option.some_inj.1 h).symm
              rw [if_neg hcond]
          · intro k hkB hkC
            rw [setNode_nodeMap_ne _ _ _ _ hkB, appendDirtyStep_nodeMap,
              setNode_nodeMap_ne _ _ _ _ hkC]
            by_cases hkpk : k = pk
            · subst hkpk
              rw [setNode_nodeMap_self, if_pos hp, hq]
              rfl
            · rw [setNode_nodeMap_ne _ _ _ _ hkpk]
              have hcond : ¬(cn.parent = some k) := by
                rw [hp]
                exact fun h => hkpk (Option.some_inj.1 h).symm
              rw [if_neg hcond]
          · intro k
            rw [setNode_dirtySubTrees, appendDirtyStep_mem_dirty, setNode_dirtySubTrees,
              setNode_dirtySubTrees, hmid]
            refine or_congr_right (and_congr_right fun _ =>
              Iff.trans (empty_text_transfer _ _ _ _ ?_) (empty_text_transfer _ _ _ _ (by simp [hq])))
            rw [setNode_nodeMap_ne _ _ _ _ hCpk, hC]
            simpa using exists_empty_text_withParent cn (some B)

/-- A key that `mapOf` resolves is an entry of the association list. -/
theorem mapOf_eq_some (entries : List (NodeKey × OutlineNode)) (k : NodeKey)
    (v : OutlineNode) (h : mapOf entries k = some v) : (k, v) ∈ entries := by
  simp only [mapOf, Option.map_eq_some'] at h
  obtain ⟨⟨k', v'⟩, hfind, hv⟩ := h
  have hk : (k' == k) = true := by
    have := List.find?_some hfind
    simpa using this
  have hmem := List.mem_of_find?_eq_some hfind
  rw [Nat.beq_eq_true_eq] at hk
  subst hk
  cases hv
  exact hmem

/-- Claim C4: in a parent-consistent tree, after a successful
`append st B C` the child's final version records `B` as parent, `B`'s
child list holds `C` exactly once, as its last element, and `C` appears in
no other block's child list. -/
theorem C4_append_parent_child
    (st : EditorState) (B C : NodeKey) (b : BlockNodeData) (cn : OutlineNode)
    (hro : st.readOnly = false)
    (hB : st.nodeMap B = some (OutlineNode.block b))
    (hC : st.nodeMap C = some cn)
    (hwf : ConsistentParents st) :
    ∃ st', append st B C = Except.ok st' ∧
      (∀ n, st'.nodeMap C = some n → n.parent = some B) ∧
      (∃ bf, st'.nodeMap B = some (OutlineNode.block bf) ∧
        bf.children.count C = 1 ∧ bf.children.getLast? = some C) ∧
      (∀ q bq, q ≠ B → st'.nodeMap q = some (OutlineNode.block bq) → C ∉ bq.children) := by
  obtain ⟨st', bf, h1, h2, h3, h4, h5, h6, _, _, _, _⟩ := append_ok_char st B C b cn hro hB hC
  have hCnotmid : C ∉ (if cn.parent = some B then b.children.erase C else b.children) := by
    by_cases hcp : cn.parent = some B
    · rw [if_pos hcp]
      intro hmem
      have hnd := (hwf B b hB).1
      exact absurd ((List.Nodup.mem_erase_iff hnd).1 hmem).1 (by simp)
    · rw [if_neg hcp]
      intro hmem
      exact hcp ((hwf B b hB).2 C hmem cn hC)
  refine ⟨st', h1, ?_, ⟨bf, h2, ?_, ?_⟩, ?_⟩
  · intro n hn
    by_cases hCB : C = B
    · subst hCB
      rw [h2, Option.some.injEq] at hn
      subst hn
      exact h4 rfl
    · obtain ⟨cnA, hA1, hA2, _, _⟩ := h5 hCB
      rw [hA1, Option.some.injEq] at hn
      subst hn
      exact hA2
  · rw [h3, List.count_append]
    rw [List.count_eq_zero.2 hCnotmid]
    simp
  · rw [h3]
    exact List.getLast?_concat _
  · intro q bq hqB hq
    by_cases hqC : q = C
    · subst hqC
      obtain ⟨cnA, hA1, hA2, hA3, _⟩ := h5 hqB
      rw [hA1, Option.some.injEq] at hq
      subst hq
      have hbq : bq.children =
          (if cn.parent = some q then cn.childrenOf.erase q else cn.childrenOf) := hA3
      intro hmem
      rw [hbq] at hmem
      by_cases hcp : cn.parent = some q
      · rw [if_pos hcp] at hmem
        cases hcn : cn with
        | text t =>
          rw [hcn] at hmem
          simp [OutlineNode.childrenOf] at hmem
        | block q0 =>
          have hq0 : st.nodeMap q = some (OutlineNode.block q0) := by rw [hC, hcn]
          have hnd := (hwf q q0 hq0).1
          rw [hcn] at hmem
          have hmem2 : q ∈ q0.children.erase q := hmem
          exact absurd ((List.Nodup.mem_erase_iff hnd).1 hmem2).1 (by simp)
      · rw [if_neg hcp] at hmem
        cases hcn : cn with
        | text t =>
          rw [hcn] at hmem
          simp [OutlineNode.childrenOf] at hmem
        | block q0 =>
          have hq0 : st.nodeMap q = some (OutlineNode.block q0) := by rw [hC, hcn]
          rw [hcn] at hmem
          have hmem2 : q ∈ q0.children := hmem
          exact hcp ((hwf q q0 hq0).2 q hmem2 cn hC)
    · rw [h6 q hqB hqC] at hq
      by_cases hcq : cn.parent = some q
      · rw [if_pos hcq] at hq
        cases hsq : st.nodeMap q with
        | none => rw [hsq] at hq; cases hq
        | some n =>
          cases n with
          | text t => rw [hsq] at hq; cases hq
          | block p0 =>
            rw [hsq] at hq
            simp only [eraseMaybe, Option.some.injEq, OutlineNode.block.injEq] at hq
            rw [← hq]
            intro hmem
            have hnd := (hwf q p0 hsq).1
            exact absurd ((List.Nodup.mem_erase_iff hnd).1 hmem).1 (by simp)
      · rw [if_neg hcq] at hq
        intro hmem
        exact hcq ((hwf q bq hq).2 C hmem cn hC)

/-- The witness state `stC4` satisfies the parent/child invariant. -/
theorem stC4_consistent : ConsistentParents stC4 := by
  intro p bp hp
  have hmem := mapOf_eq_some _ _ _ hp
  simp only [List.mem_cons, List.not_mem_nil, or_false, Prod.mk.injEq] at hmem
  rcases hmem with ⟨rfl, hbp⟩ | ⟨rfl, hbp⟩ | ⟨rfl, hbp⟩
  · rw [OutlineNode.block.injEq] at hbp
    subst hbp
    refine ⟨by decide, ?_⟩
    intro ck hck n hn
    simp only [List.mem_singleton] at hck
    subst hck
    have h3 : stC4.nodeMap 3 = some (mkText 3 (some 1) "x" 0 none) := by decide
    rw [h3, Option.some.injEq] at hn
    subst hn
    decide
  · rw [OutlineNode.block.injEq] at hbp
    subst hbp
    refine ⟨by decide, ?_⟩
    intro ck hck
    simp at hck
  · simp [mkText] at hbp

/-- Witness for C4: moving text node 3 from block 1 into block 2. -/
theorem C4_witness :
    ∃ st', append stC4 2 3 = Except.ok st' ∧
      (∀ n, st'.nodeMap 3 = some n → n.parent = some 2) ∧
      (∃ bf, st'.nodeMap 2 = some (OutlineNode.block bf) ∧
        bf.children.count 3 = 1 ∧ bf.children.getLast? = some 3) ∧
      (∀ q bq, q ≠ 2 → st'.nodeMap q = some (OutlineNode.block bq) → 3 ∉ bq.children) :=
  C4_append_parent_child stC4 2 3 ⟨2, none, 0, []⟩ (mkText 3 (some 1) "x" 0 none)
    (by decide) (by decide) (by decide) stC4_consistent

/-- Claim C6 (amended): `append` adds to the transaction's dirty set exactly
the key of the block's last child as it stands after the child's removal
from its previous parent (this differs from the pre-append last child
exactly when the appended node was already the block's last child), and only
when that last child is a text node with empty content; nothing is added
when the (post-removal) child list is empty, its last child is a non-text
node, or its text is non-empty. -/
theorem C6_append_dirty_marking
    (st : EditorState) (B C : NodeKey) (b : BlockNodeData) (cn : OutlineNode)
    (hro : st.readOnly = false)
    (hB : st.nodeMap B = some (OutlineNode.block b))
    (hC : st.nodeMap C = some cn) :
    ∃ st', append st B C = Except.ok st' ∧
      ∀ k, k ∈ st'.dirtySubTrees ↔ k ∈ st.dirtySubTrees ∨
        ((if cn.parent = some B then b.children.erase C else b.children).getLast? = some k ∧
          ∃ t, st.nodeMap k = some (OutlineNode.text t) ∧ t.text = []) := by
  obtain ⟨st', bf, h1, _, _, _, _, _, h7, _⟩ := append_ok_char st B C b cn hro hB hC
  exact ⟨st', h1, h7⟩

/-- Witness for C6 at `stC6`: re-appending child 3 (non-empty text) of
block 1 marks key 2 (the empty text node that becomes last after the
unlink) dirty. -/
theorem C6_witness :
    ∃ st', append stC6 1 3 = Except.ok st' ∧
      ∀ k, k ∈ st'.dirtySubTrees ↔ k ∈ stC6.dirtySubTrees ∨
        ((if (mkText 3 (some 1) "x" 0 none).parent = some 1
            then (⟨1, none, 0, [2, 3]⟩ : BlockNodeData).children.erase 3
            else (⟨1, none, 0, [2, 3]⟩ : BlockNodeData).children).getLast? = some k ∧
          ∃ t, stC6.nodeMap k = some (OutlineNode.text t) ∧ t.text = []) :=
  C6_append_dirty_marking stC6 1 3 ⟨1, none, 0, [2, 3]⟩ (mkText 3 (some 1) "x" 0 none)
    (by decide) (by decide) (by decide)

/-! ## Claim C5: `clear` -/

/-- Resolving a list of keys whose nodes carry their own key, then reading
the keys back, is the identity. -/
theorem filterMap_key_self (st : EditorState) : ∀ (l : List NodeKey),
    (∀ ck ∈ l, ∃ n, st.nodeMap ck = some n ∧ n.key = ck) →
    (l.filterMap st.nodeMap).map OutlineNode.key = l := by
  intro l
  induction l with
  | nil => intro _; rfl
  | cons c cs ih =>
    intro h
    obtain ⟨n, hn, hk⟩ := h c (by simp)
    rw [List.filterMap_cons, hn]
    simp only [List.map_cons, hk]
    rw [ih (fun ck hck => h ck (by simp [hck]))]

/-- Characterization of removing a duplicate-free batch of children (each
resolving with this block as parent): the block's child list keeps exactly
the non-removed keys, the removed registry entries are gone, everything
else is untouched. -/
theorem removeAll_spec (ks : List NodeKey) :
    ∀ (st : EditorState) (key : NodeKey) (b : BlockNodeData),
    st.nodeMap key = some (OutlineNode.block b) →
    (∀ k ∈ ks, ∃ n, st.nodeMap k = some n ∧ n.parent = some key) →
    (∀ k ∈ ks, k ∈ b.children) →
    b.children.Nodup → ks.Nodup → key ∉ ks →
    ∃ st' chf, removeAll st ks = Except.ok st' ∧
      st'.nodeMap key = some (OutlineNode.block { b with children := chf }) ∧
      (∀ c, c ∈ chf ↔ c ∈ b.children ∧ c ∉ ks) ∧
      (∀ k, k ≠ key → k ∉ ks → st'.nodeMap k = st.nodeMap k) ∧
      st'.selection = st.selection ∧ st'.dirtySubTrees = st.dirtySubTrees ∧
      st'.readOnly = st.readOnly ∧ st'.nextKey = st.nextKey := by
  induction ks with
  | nil =>
    intro st key b hB hks hsub hnd hndks hkey
    refine ⟨st, b.children, rfl, by rw [hB], by simp, fun _ _ _ => rfl, rfl, rfl, rfl, rfl⟩
  | cons k0 ks' ih =>
    intro st key b hB hks hsub hnd hndks hkey
    obtain ⟨n0, hn0, hp0⟩ := hks k0 (by simp)
    have hkey0 : key ≠ k0 := fun h => hkey (by simp [h])
    have hk0ks : k0 ∉ ks' := (List.nodup_cons.1 hndks).1
    have hstep : removeNode st k0 =
        Except.ok (delNode (setNode st key
          (.block { b with children := b.children.erase k0 })) k0) := by
      simp only [removeNode, hn0, removeFromOldParent, hp0, hB]
    have hB1 : (delNode (setNode st key
        (.block { b with children := b.children.erase k0 })) k0).nodeMap key =
        some (OutlineNode.block { b with children := b.children.erase k0 }) := by
      rw [delNode_nodeMap, if_neg hkey0, setNode_nodeMap_self]
    obtain ⟨st', chf, hrun, hmapk, hchf, hother, hsel, hdirt, hro', hnk⟩ :=
      ih (delNode (setNode st key (.block { b with children := b.children.erase k0 })) k0)
        key { b with children := b.children.erase k0 } hB1
        (by
          intro k hk
          obtain ⟨n, hn, hp⟩ := hks k (by simp [hk])
          have hkk0 : k ≠ k0 := fun h => hk0ks (h ▸ hk)
          have hkkey : k ≠ key := fun h => hkey (by simp [← h, hk])
          refine ⟨n, ?_, hp⟩
          rw [delNode_nodeMap, if_neg hkk0, setNode_nodeMap_ne _ _ _ _ hkkey]
          exact hn)
        (by
          intro k hk
          have hkk0 : k ≠ k0 := fun h => hk0ks (h ▸ hk)
          exact (List.mem_erase_of_ne hkk0).2 (hsub k (by simp [hk])))
        (List.Nodup.erase _ hnd) (List.nodup_cons.1 hndks).2
        (fun h => hkey (by simp [h]))
    refine ⟨st', chf, ?_, hmapk, ?_, ?_, ?_, ?_, ?_, ?_⟩
    · rw [removeAll, hstep]
      exact hrun
    · intro c
      rw [hchf c]
      have herase : c ∈ b.children.erase k0 ↔ c ≠ k0 ∧ c ∈ b.children :=
        List.Nodup.mem_erase_iff hnd
      rw [show ({ b with children := b.children.erase k0 } : BlockNodeData).children =
        b.children.erase k0 from rfl, herase, List.mem_cons]
      constructor
      · rintro ⟨⟨hne, hmem⟩, hnot⟩
        exact ⟨hmem, fun h => h.elim hne hnot⟩
      · rintro ⟨hmem, hnot⟩
        exact ⟨⟨fun h => hnot (Or.inl h), hmem⟩, fun h => hnot (Or.inr h)⟩
    · intro k hkkey hknot
      have hkk0 : k ≠ k0 := fun h => hknot (by simp [h])
      rw [hother k hkkey (fun h => hknot (by simp [h])), delNode_nodeMap, if_neg hkk0,
        setNode_nodeMap_ne _ _ _ _ hkkey]
    · rw [hsel]; rfl
    · rw [hdirt]; rfl
    · rw [hro']; rfl
    · rw [hnk]; rfl

/-- Claim C5: after a successful `clear` on a well-formed block whose fresh
key is really fresh, the block's child list is exactly one freshly created
empty text node (parented to the block), and, when `restoreSelection` is
requested and a selection is active, both selection endpoints are placed at
offset 0 inside that node. -/
theorem C5_clear_singleton
    (st : EditorState) (key : NodeKey) (b : BlockNodeData)
    (hro : st.readOnly = false)
    (hB : st.nodeMap key = some (OutlineNode.block b))
    (hres : ∀ ck ∈ b.children, ∃ n, st.nodeMap ck = some n ∧ n.parent = some key ∧ n.key = ck)
    (hnd : b.children.Nodup)
    (hkey : key ∉ b.children)
    (hfreshkey : st.nextKey ≠ key) :
    ∀ restore, ∃ st', clear st key restore = Except.ok st' ∧
      childKeysOf st' key = [st.nextKey] ∧
      (∃ t, st'.nodeMap st.nextKey = some (OutlineNode.text t) ∧ t.text = [] ∧
        t.parent = some key) ∧
      (restore = true → ∀ s0, st.selection = some s0 →
        st'.selection = some { s0 with
          anchorKey := st.nextKey, anchorOffset := 0,
          focusKey := st.nextKey, focusOffset := 0 }) := by
  intro restore
  have hifro : ¬(st.readOnly = true) := by simp [hro]
  have hkeys : (getChildren st key).map OutlineNode.key = b.children := by
    have hgc : getChildren st key = b.children.filterMap st.nodeMap := by
      simp only [getChildren, hB]
      exact resolveKeys_eq_filterMap st b.children
    rw [hgc]
    exact filterMap_key_self st b.children
      (fun ck hck => (hres ck hck).imp (fun n hn => ⟨hn.1, hn.2.2⟩))
  obtain ⟨st1, chf, hrun, hmapk, hchf, hother, hsel1, hdirt1, hro1, hnk1⟩ :=
    removeAll_spec b.children st key b hB
      (fun k hk => (hres k hk).imp (fun n hn => ⟨hn.1, hn.2.1⟩))
      (fun k hk => hk) hnd hnd hkey
  have hchfnil : chf = [] := by
    rw [List.eq_nil_iff_forall_not_mem]
    intro c hc
    exact ((hchf c).1 hc).2 ((hchf c).1 hc).1
  subst hchfnil
  -- the fresh node's registration state
  have hro2 : ({ setNode st1 st.nextKey (.text (newTextNode st.nextKey)) with
      nextKey := st.nextKey + 1 } : EditorState).readOnly = false := by
    show (setNode st1 st.nextKey (.text (newTextNode st.nextKey))).readOnly = false
    rw [setNode_readOnly, hro1, hro]
  have hB2 : ({ setNode st1 st.nextKey (.text (newTextNode st.nextKey)) with
      nextKey := st.nextKey + 1 } : EditorState).nodeMap key =
      some (OutlineNode.block { b with children := ([] : List NodeKey) }) := by
    show (setNode st1 st.nextKey (.text (newTextNode st.nextKey))).nodeMap key = _
    rw [setNode_nodeMap_ne _ _ _ _ (Ne.symm hfreshkey)]
    exact hmapk
  have hC2 : ({ setNode st1 st.nextKey (.text (newTextNode st.nextKey)) with
      nextKey := st.nextKey + 1 } : EditorState).nodeMap st.nextKey =
      some (OutlineNode.text (newTextNode st.nextKey)) := by
    show (setNode st1 st.nextKey (.text (newTextNode st.nextKey))).nodeMap st.nextKey = _
    rw [setNode_nodeMap_self]
  obtain ⟨st3, bf, ha1, ha2, ha3, _, ha5, _, _, hasel, _, _⟩ :=
    append_ok_char _ key st.nextKey { b with children := ([] : List NodeKey) }
      (OutlineNode.text (newTextNode st.nextKey)) hro2 hB2 hC2
  have hbf : bf.children = [st.nextKey] := by
    rw [ha3]
    have hcond : ¬((OutlineNode.text (newTextNode st.nextKey)).parent = some key) := by
      simp [newTextNode, OutlineNode.parent]
    rw [if_neg hcond]
    rfl
  obtain ⟨cnA, hc1, _, _, hc4⟩ := ha5 hfreshkey
  have hcA : cnA = OutlineNode.text { newTextNode st.nextKey with parent := some key } :=
    hc4 _ rfl
  subst hcA
  -- assemble the run of `clear`
  have hclear : clear st key restore = Except.ok
      (if restore then selectNode st3 st.nextKey 0 0 else st3) := by
    simp only [clear]
    rw [if_neg hifro]
    simp only [hB, hkeys, hrun, hnk1, ha1]
  refine ⟨_, hclear, ?_, ?_, ?_⟩
  · have hmap' : (if restore then selectNode st3 st.nextKey 0 0 else st3).nodeMap = st3.nodeMap := by
      by_cases hrr : restore
      · rw [if_pos hrr]; rfl
      · rw [if_neg hrr]
    simp only [childKeysOf, hmap', ha2]
    exact hbf
  · refine ⟨{ newTextNode st.nextKey with parent := some key }, ?_, rfl, rfl⟩
    have hmap' : (if restore then selectNode st3 st.nextKey 0 0 else st3).nodeMap = st3.nodeMap := by
      by_cases hrr : restore
      · rw [if_pos hrr]; rfl
      · rw [if_neg hrr]
    rw [hmap']
    exact hc1
  · intro hrr s0 hs0
    rw [if_pos hrr]
    have hsel3 : st3.selection = some s0 := by
      rw [hasel]
      show (setNode st1 st.nextKey (.text (newTextNode st.nextKey))).selection = some s0
      rw [setNode_selection, hsel1, hs0]
    show (updateSelection st3 _).selection = _
    rw [updateSelection_selection, hsel3]
    rfl

/-- Witness for C5 at `stC3` (block 1 with two text children, active
selection): clearing with `restoreSelection` leaves one fresh empty text
child and collapses the selection into it. -/
theorem C5_witness :
    ∃ st', clear stC3 1 true = Except.ok st' ∧
      childKeysOf st' 1 = [stC3.nextKey] ∧
      (∃ t, st'.nodeMap stC3.nextKey = some (OutlineNode.text t) ∧ t.text = [] ∧
        t.parent = some 1) ∧
      (true = true → ∀ s0, stC3.selection = some s0 →
        st'.selection = some { s0 with
          anchorKey := stC3.nextKey, anchorOffset := 0,
          focusKey := stC3.nextKey, focusOffset := 0 }) :=
  C5_clear_singleton stC3 1 ⟨1, none, 0, [2, 3]⟩ (by decide) (by decide)
    (by
      intro ck hck
      simp only [List.mem_cons, List.not_mem_nil, or_false] at hck
      rcases hck with rfl | rfl
      · exact ⟨mkText 2 (some 1) "ab" 0 none, by decide, by decide, by decide⟩
      · exact ⟨mkText 3 (some 1) "cd" 0 none, by decide, by decide, by decide⟩)
    (by decide) (by decide) (by decide) true

/-! ## Claim C1: first/last text node -/

/-- If the reference DFS assigns the expected node to the last child slot,
the collected text list ends with it. -/
theorem collectTextList_last (f : NodeKey → List TextNodeData) (t : TextNodeData) :
    ∀ (l : List OutlineNode),
    (match l.getLast? with
     | some (OutlineNode.text tx) => tx = t
     | some (OutlineNode.block bb) => (f bb.key).getLast? = some t
     | none => False) →
    (collectTextList f l).getLast? = some t := by
  intro l
  induction l with
  | nil => intro h; exact h.elim
  | cons c rest ih =>
    intro h
    cases rest with
    | nil =>
      cases c with
      | text tx =>
        have h' : tx = t := h
        subst h'
        rfl
      | block bb =>
        have h' : (f bb.key).getLast? = some t := h
        rw [show collectTextList f [OutlineNode.block bb] = f bb.key ++ [] from rfl,
          List.append_nil]
        exact h'
    | cons c2 rest2 =>
      have h2 : (match (c2 :: rest2).getLast? with
         | some (OutlineNode.text tx) => tx = t
         | some (OutlineNode.block bb) => (f bb.key).getLast? = some t
         | none => False) := by
        rw [List.getLast?_cons_cons] at h
        exact h
      have hih := ih h2
      have hne : collectTextList f (c2 :: rest2) ≠ [] := fun hnil => by
        rw [hnil] at hih; cases hih
      cases c with
      | text tx =>
        show (tx :: collectTextList f (c2 :: rest2)).getLast? = some t
        rw [show (tx :: collectTextList f (c2 :: rest2) : List TextNodeData) =
          [tx] ++ collectTextList f (c2 :: rest2) from rfl]
        rw [List.getLast?_append_of_ne_nil _ hne]
        exact hih
      | block bb =>
        show (f bb.key ++ collectTextList f (c2 :: rest2)).getLast? = some t
        rw [List.getLast?_append_of_ne_nil _ hne]
        exact hih

/-- Claim C1 (amended): `getFirstTextNode` descends only into the first
resolvable child (and `getLastTextNode` only into the last); whenever it
returns a text node, that node is the first (resp. last) text node of the
full document-order depth-first traversal, but it may return `none` even
when the subtree contains text nodes. -/
theorem C1_first_last_text :
    ∀ (fuel : Nat) (st : EditorState) (key : NodeKey) (t : TextNodeData),
      (getFirstTextNode st fuel key = some t →
        (collectTextNodes st fuel key).head? = some t) ∧
      (getLastTextNode st fuel key = some t →
        (collectTextNodes st fuel key).getLast? = some t) := by
  intro fuel
  induction fuel with
  | zero =>
    intro st key t
    exact ⟨fun h => Option.noConfusion h, fun h => Option.noConfusion h⟩
  | succ fuel ih =>
    intro st key t
    constructor
    · intro h
      simp only [getFirstTextNode] at h
      simp only [collectTextNodes]
      cases hc : getChildren st key with
      | nil => rw [hc] at h; exact Option.noConfusion h
      | cons c rest =>
        rw [hc] at h
        cases c with
        | text tx =>
          have h' : tx = t := Option.some.inj h
          subst h'
          rfl
        | block bb =>
          have hih := (ih st bb.key t).1 h
          have hne : collectTextNodes st fuel bb.key ≠ [] := fun hnil => by
            rw [hnil] at hih; cases hih
          show (collectTextNodes st fuel bb.key ++ collectTextList _ rest).head? = some t
          rw [List.head?_append_of_ne_nil _ hne]
          exact hih
    · intro h
      simp only [getLastTextNode] at h
      simp only [collectTextNodes]
      apply collectTextList_last
      cases hl : (getChildren st key).getLast? with
      | none => rw [hl] at h; exact Option.noConfusion h
      | some c =>
        rw [hl] at h
        cases c with
        | text tx => exact Option.some.inj h
        | block bb => exact (ih st bb.key t).2 h

/-- Witness for C1 at `stC1b` / `stC1`: when the traversals do return a
text node, it heads (resp. ends) the reference DFS collection. -/
theorem C1_witness :
    getFirstTextNode stC1b 5 1 = some ⟨3, some 1, 0, ['x'], none, false, false⟩ ∧
    (collectTextNodes stC1b 5 1).head? = some ⟨3, some 1, 0, ['x'], none, false, false⟩ ∧
    getLastTextNode stC1 5 1 = some ⟨3, some 1, 0, ['x'], none, false, false⟩ ∧
    (collectTextNodes stC1 5 1).getLast? = some ⟨3, some 1, 0, ['x'], none, false, false⟩ :=
  ⟨by decide, (C1_first_last_text 5 stC1b 1 _).1 (by decide), by decide,
    (C1_first_last_text 5 stC1 1 _).2 (by decide)⟩

/-! ## Claim C10: merging marks the selection dirty -/

theorem spliceText_ok_selection (st : EditorState) (k : NodeKey) (o d : Nat)
    (nt : List Char) (st' : EditorState) (h : spliceText st k o d nt = Except.ok st') :
    st'.selection = st.selection := by
  unfold spliceText at h
  split at h
  · rw [← Except.ok.inj h]
    simp
  · exact Except.noConfusion h

theorem removeNode_ok_selection (st : EditorState) (k : NodeKey) (st' : EditorState)
    (h : removeNode st k = Except.ok st') : st'.selection = st.selection := by
  unfold removeNode at h
  split at h
  · exact Except.noConfusion h
  · rw [← Except.ok.inj h]
    simp

/-- Conditionally rebasing an endpoint preserves the presence of a
selection. -/
theorem ite_updateSelection_isSome (c : Prop) [Decidable c] (st : EditorState)
    (f : Selection → Selection) :
    (if c then updateSelection st f else st).selection.isSome = st.selection.isSome := by
  by_cases h : c
  · rw [if_pos h, updateSelection_selection]
    cases st.selection <;> rfl
  · rw [if_neg h]

/-- A successful merge loop with `restoreSelection` set ends with a present,
dirty selection. -/
theorem combineLoop_dirty :
    ∀ (l : List NodeKey) (a0k f0k : NodeKey) (a0off f0off : Nat) (mergeKey : NodeKey)
      (st : EditorState) (tl : Nat) (st' : EditorState),
      combineLoop a0k f0k a0off f0off true mergeKey st tl l = Except.ok st' →
      st.selection.isSome = true →
      ∃ sel', st'.selection = some sel' ∧ sel'.isDirty = true := by
  intro l
  induction l with
  | nil =>
    intro a0k f0k a0off f0off mergeKey st tl st' hok hsome
    simp only [combineLoop] at hok
    have hok' := Except.ok.inj hok
    subst hok'
    cases hsel : st.selection with
    | none => rw [hsel] at hsome; cases hsome
    | some s =>
      refine ⟨{ s with isDirty := true }, ?_, rfl⟩
      rw [if_pos trivial, updateSelection_selection, hsel]
      rfl
  | cons tk rest ih =>
    intro a0k f0k a0off f0off mergeKey st tl st' hok hsome
    simp only [combineLoop] at hok
    split at hok
    · -- first node resolved to a text node
      rename_i tn htk
      split at hok
      · exact Except.noConfusion hok
      · rename_i st3 hsp
        split at hok
        · exact Except.noConfusion hok
        · rename_i st4 hrm
          refine ih _ _ _ _ _ st4 _ st' hok ?_
          rw [removeNode_ok_selection _ _ _ hrm, spliceText_ok_selection _ _ _ _ _ _ hsp,
            ite_updateSelection_isSome, ite_updateSelection_isSome]
          exact hsome
    · exact Except.noConfusion hok

/-- A successful `combineAdjacentTextNodes` with `restoreSelection` set ends
with a present, dirty selection. -/
theorem combine_dirty (st : EditorState) (l : List NodeKey) (st' : EditorState)
    (h : combineAdjacentTextNodes st l true = Except.ok st') :
    ∃ sel', st'.selection = some sel' ∧ sel'.isDirty = true := by
  unfold combineAdjacentTextNodes at h
  split at h
  · exact Except.noConfusion h
  · rename_i selection hsel
    split at h
    · exact Except.noConfusion h
    · rename_i first rest
      split at h
      · rename_i t0 hfirst
        exact combineLoop_dirty rest _ _ _ _ _ st _ st' h (by rw [hsel]; rfl)
      · exact Except.noConfusion h

/-- A successful selection-aware normalization scan either leaves the state
untouched (no batch merged) or ends with a present, dirty selection. -/
theorem normalizeLoop_ok_cases :
    ∀ (rest : List NodeKey) (st : EditorState) (lf : Option Nat) (lu : Option String)
      (toNorm : List NodeKey) (st' : EditorState),
      normalizeLoop true st lf lu toNorm rest = Except.ok st' →
      st' = st ∨ (∃ sel', st'.selection = some sel' ∧ sel'.isDirty = true) := by
  intro rest
  induction rest with
  | nil =>
    intro st lf lu toNorm st' hok
    simp only [normalizeLoop] at hok
    by_cases hlen : toNorm.length > 1
    · rw [if_pos hlen] at hok
      exact .inr (combine_dirty st toNorm st' hok)
    · rw [if_neg hlen] at hok
      exact .inl (Except.ok.inj hok).symm
  | cons ck rest ih =>
    intro st lf lu toNorm st' hok
    simp only [normalizeLoop] at hok
    cases hck : st.nodeMap ck with
    | none =>
      simp only [hck] at hok
      exact Except.noConfusion hok
    | some child =>
      simp only [hck] at hok
      cases het : eligibleText child with
      | some t =>
        simp only [het] at hok
        by_cases hcompat : (lf = none ∨ lf = some t.flags) ∧ (lu = none ∨ lu = t.url)
        · rw [if_pos hcompat] at hok
          exact ih st _ _ _ st' hok
        · rw [if_neg hcompat] at hok
          by_cases hlen : toNorm.length > 1
          · rw [if_pos hlen] at hok
            cases hcomb : combineAdjacentTextNodes st toNorm true with
            | error e => rw [hcomb] at hok; exact Except.noConfusion hok
            | ok st1 =>
              rw [hcomb] at hok
              have hd1 := combine_dirty st toNorm st1 hcomb
              rcases ih st1 _ _ _ st' hok with rfl | hd
              · exact .inr hd1
              · exact .inr hd
          · rw [if_neg hlen] at hok
            exact ih st _ _ _ st' hok
      | none =>
        simp only [het] at hok
        by_cases hlen : toNorm.length > 1
        · rw [if_pos hlen] at hok
          cases hcomb : combineAdjacentTextNodes st toNorm true with
          | error e => rw [hcomb] at hok; exact Except.noConfusion hok
          | ok st1 =>
            rw [hcomb] at hok
            have hd1 := combine_dirty st toNorm st1 hcomb
            rcases ih st1 _ _ _ st' hok with rfl | hd
            · exact .inr hd1
            · exact .inr hd
        · rw [if_neg hlen] at hok
          exact ih st _ _ _ st' hok

/-- Claim C10: whenever a selection-aware normalization changes the block's
child list (i.e. at least one batch was merged), the resulting selection is
present and marked dirty, regardless of whether any endpoint was actually
rebased. -/
theorem C10_merge_sets_selection_dirty (st : EditorState) (key : NodeKey)
    (st' : EditorState)
    (hok : normalizeTextNodes st true key = Except.ok st')
    (hchanged : childKeysOf st' key ≠ childKeysOf st key) :
    ∃ sel', st'.selection = some sel' ∧ sel'.isDirty = true := by
  unfold normalizeTextNodes at hok
  by_cases hro : st.readOnly = true
  · rw [if_pos hro] at hok
    exact Except.noConfusion hok
  · rw [if_neg hro] at hok
    rcases normalizeLoop_ok_cases _ st none none [] st' hok with rfl | hd
    · exact absurd rfl hchanged
    · exact hd

/-- Witness for C10 at `stC10`: the selection endpoints (key 99) match no
merged node, yet after the merge of the two text children the selection is
dirty. -/
theorem C10_witness :
    ∃ st', normalizeTextNodes stC10 true 1 = Except.ok st' ∧
      ∃ sel', st'.selection = some sel' ∧ sel'.isDirty = true := by
  cases hok : normalizeTextNodes stC10 true 1 with
  | error e =>
    have hnone : errMsgOf (normalizeTextNodes stC10 true 1) = none := by decide
    rw [hok] at hnone
    exact Option.noConfusion hnone
  | ok st' =>
    refine ⟨st', rfl, C10_merge_sets_selection_dirty stC10 1 st' hok ?_⟩
    have hck : resultChildKeys (normalizeTextNodes stC10 true 1) 1 = some [2] := by decide
    rw [hok] at hck
    have hck' : childKeysOf st' 1 = [2] := Option.some.inj hck
    rw [hck']
    have hold : childKeysOf stC10 1 = [2, 3] := by decide
    rw [hold]
    decide

/-! ## Claim C3: characterization of the merge loop -/

theorem ite_upd_nodeMap (c : Prop) [Decidable c] (st : EditorState)
    (f : Selection → Selection) (k : NodeKey) :
    (if c then updateSelection st f else st).nodeMap k = st.nodeMap k := by
  split <;> rfl

theorem ite_upd_dirty (c : Prop) [Decidable c] (st : EditorState)
    (f : Selection → Selection) :
    (if c then updateSelection st f else st).dirtySubTrees = st.dirtySubTrees := by
  split <;> rfl

theorem ite_upd_readOnly (c : Prop) [Decidable c] (st : EditorState)
    (f : Selection → Selection) :
    (if c then updateSelection st f else st).readOnly = st.readOnly := by
  split <;> rfl

theorem ite_upd_nextKey (c : Prop) [Decidable c] (st : EditorState)
    (f : Selection → Selection) :
    (if c then updateSelection st f else st).nextKey = st.nextKey := by
  split <;> rfl

/-- One iteration of the merge loop: rebases matching selection endpoints,
splices the source node's text onto the surviving node, unlinks the source
node from the block `B` and deletes it, then recurses at the accumulated
length. -/
theorem combineLoop_cons_step
    (a0k f0k : NodeKey) (a0off f0off : Nat) (restore : Bool) (mergeKey B : NodeKey)
    (st : EditorState) (t tcur : TextNodeData) (bcur : BlockNodeData)
    (rest : List NodeKey)
    (hmk : st.nodeMap mergeKey = some (.text tcur))
    (hB : st.nodeMap B = some (.block bcur))
    (ht : st.nodeMap t.key = some (.text t))
    (hpar : t.parent = some B)
    (htm : t.key ≠ mergeKey) (htB : t.key ≠ B) (hmB : mergeKey ≠ B) :
    ∃ st4,
      combineLoop a0k f0k a0off f0off restore mergeKey st tcur.text.length (t.key :: rest) =
        combineLoop a0k f0k a0off f0off restore mergeKey st4
          (tcur.text.length + t.text.length) rest ∧
      st4.nodeMap mergeKey = some (.text { tcur with text := tcur.text ++ t.text }) ∧
      st4.nodeMap B = some (.block { bcur with children := bcur.children.erase t.key }) ∧
      st4.nodeMap t.key = none ∧
      (∀ k, k ≠ mergeKey → k ≠ B → k ≠ t.key → st4.nodeMap k = st.nodeMap k) ∧
      (∀ sel, st.selection = some sel →
        st4.selection = some (
          let sel1 := if restore ∧ t.key = a0k then
              { sel with anchorOffset := tcur.text.length + a0off, anchorKey := mergeKey }
            else sel
          let sel2 := if restore ∧ t.key = f0k then
              { sel1 with focusOffset := tcur.text.length + f0off, focusKey := mergeKey }
            else sel1
          sel2)) ∧
      st4.dirtySubTrees = st.dirtySubTrees ∧ st4.readOnly = st.readOnly ∧
      st4.nextKey = st.nextKey := by
  refine ⟨delNode (setNode (setNode
      (if restore ∧ t.key = f0k then
        updateSelection
          (if restore ∧ t.key = a0k then
            updateSelection st (fun s =>
              { s with anchorOffset := tcur.text.length + a0off, anchorKey := mergeKey })
          else st)
          (fun s => { s with focusOffset := tcur.text.length + f0off, focusKey := mergeKey })
      else
        (if restore ∧ t.key = a0k then
          updateSelection st (fun s =>
            { s with anchorOffset := tcur.text.length + a0off, anchorKey := mergeKey })
        else st))
      mergeKey (.text { tcur with text := tcur.text ++ t.text }))
      B (.block { bcur with children := bcur.children.erase t.key }))
      t.key, ?_, ?_, ?_, ?_, ?_, ?_, ?_, ?_, ?_⟩
  · simp only [combineLoop, ht]
    simp only [spliceText, ite_upd_nodeMap, updateSelection_nodeMap, hmk]
    simp only [Nat.add_zero, List.take_length, List.drop_length, List.append_nil]
    simp only [removeNode]
    rw [setNode_nodeMap_ne _ _ _ _ htm]
    simp only [ite_upd_nodeMap, updateSelection_nodeMap, ht]
    simp only [removeFromOldParent, OutlineNode.parent, hpar]
    rw [setNode_nodeMap_ne _ _ _ _ (Ne.symm hmB)]
    simp only [ite_upd_nodeMap, updateSelection_nodeMap, hB]
  · rw [delNode_nodeMap, if_neg (Ne.symm htm), setNode_nodeMap_ne _ _ _ _ hmB,
      setNode_nodeMap_self]
  · rw [delNode_nodeMap, if_neg (Ne.symm htB), setNode_nodeMap_self]
  · rw [delNode_nodeMap, if_pos rfl]
  · intro k hkm hkB hkt
    rw [delNode_nodeMap, if_neg hkt, setNode_nodeMap_ne _ _ _ _ hkB,
      setNode_nodeMap_ne _ _ _ _ hkm, ite_upd_nodeMap, ite_upd_nodeMap]
  · intro sel hsl
    simp only [delNode_selection, setNode_selection]
    by_cases hc1 : restore ∧ t.key = a0k
    · by_cases hc2 : restore ∧ t.key = f0k
      · rw [if_pos hc2, if_pos hc1]
        simp only [if_pos hc1, if_pos hc2, updateSelection_selection, hsl]
        rfl
      · rw [if_neg hc2, if_pos hc1]
        simp only [if_pos hc1, if_neg hc2, updateSelection_selection, hsl]
        rfl
    · by_cases hc2 : restore ∧ t.key = f0k
      · rw [if_pos hc2, if_neg hc1]
        simp only [if_neg hc1, if_pos hc2, updateSelection_selection, hsl]
        rfl
      · rw [if_neg hc2, if_neg hc1]
        simp only [if_neg hc1, if_neg hc2]
        exact hsl
  · rw [delNode_dirtySubTrees, setNode_dirtySubTrees, setNode_dirtySubTrees, ite_upd_dirty, ite_upd_dirty]
  · rw [delNode_readOnly, setNode_readOnly, setNode_readOnly, ite_upd_readOnly, ite_upd_readOnly]
  · rw [delNode_nextKey, setNode_nextKey, setNode_nextKey, ite_upd_nextKey, ite_upd_nextKey]

/-- Full characterization of a successful merge loop over a batch of
resolvable text nodes with pairwise-distinct keys, all parented to the block
`B`: the surviving node accumulates every source text, the source nodes are
deleted and unlinked from `B`'s child list, every other key is untouched,
and the selection evolves exactly as the pure mirror `combineSelLoop`. -/
theorem combineLoop_spec :
    ∀ (ts : List TextNodeData) (st : EditorState) (tcur : TextNodeData)
      (bcur : BlockNodeData) (a0k f0k : NodeKey) (a0off f0off : Nat)
      (restore : Bool) (mergeKey B : NodeKey),
      st.nodeMap mergeKey = some (.text tcur) →
      st.nodeMap B = some (.block bcur) →
      (∀ t ∈ ts, st.nodeMap t.key = some (.text t)) →
      (∀ t ∈ ts, t.parent = some B) →
      (mergeKey :: ts.map TextNodeData.key).Nodup →
      B ∉ mergeKey :: ts.map TextNodeData.key →
      ∃ st',
        combineLoop a0k f0k a0off f0off restore mergeKey st tcur.text.length
            (ts.map TextNodeData.key) = .ok st' ∧
        st'.nodeMap mergeKey =
          some (.text { tcur with text := tcur.text ++ (ts.map TextNodeData.text).flatten }) ∧
        st'.nodeMap B = some (.block { bcur with
          children := (ts.map TextNodeData.key).foldl List.erase bcur.children }) ∧
        (∀ t ∈ ts, st'.nodeMap t.key = none) ∧
        (∀ k, k ≠ mergeKey → k ≠ B → k ∉ ts.map TextNodeData.key →
          st'.nodeMap k = st.nodeMap k) ∧
        (∀ sel, st.selection = some sel →
          st'.selection = some (combineSelLoop a0k f0k a0off f0off restore mergeKey
            sel tcur.text.length ts)) ∧
        st'.dirtySubTrees = st.dirtySubTrees ∧ st'.readOnly = st.readOnly ∧
        st'.nextKey = st.nextKey := by
  intro ts
  induction ts with
  | nil =>
    intro st tcur bcur a0k f0k a0off f0off restore mergeKey B hmk hB _ _ _ _
    refine ⟨if restore then updateSelection st (fun s => { s with isDirty := true }) else st,
      ?_, ?_, ?_, ?_, ?_, ?_, ?_, ?_, ?_⟩
    · simp only [List.map_nil, combineLoop]
    · rw [ite_upd_nodeMap, hmk]
      simp
    · rw [ite_upd_nodeMap, hB]
      simp
    · intro t ht
      exact absurd ht (List.not_mem_nil t)
    · intro k _ _ _
      rw [ite_upd_nodeMap]
    · intro sel hs
      simp only [combineSelLoop]
      by_cases hr : restore = true
      · rw [if_pos hr, if_pos hr, updateSelection_selection, hs]
        rfl
      · rw [if_neg hr, if_neg hr, hs]
    · rw [ite_upd_dirty]
    · rw [ite_upd_readOnly]
    · rw [ite_upd_nextKey]
  | cons t ts' ih =>
    intro st tcur bcur a0k f0k a0off f0off restore mergeKey B hmk hB hres hpar hnd hBn
    rw [List.map_cons] at hnd hBn
    obtain ⟨hmnot, hnd2⟩ := List.nodup_cons.1 hnd
    obtain ⟨htnot, hnd3⟩ := List.nodup_cons.1 hnd2
    have htm : t.key ≠ mergeKey := fun h => hmnot (List.mem_cons.2 (Or.inl h.symm))
    have hmB : mergeKey ≠ B := fun h => hBn (List.mem_cons.2 (Or.inl h.symm))
    have htB : t.key ≠ B := fun h =>
      hBn (List.mem_cons.2 (Or.inr (List.mem_cons.2 (Or.inl h.symm))))
    obtain ⟨st4, hstep, h4mk, h4B, h4t, h4oth, h4sel, h4d, h4ro, h4nk⟩ :=
      combineLoop_cons_step a0k f0k a0off f0off restore mergeKey B st t tcur bcur
        (ts'.map TextNodeData.key) hmk hB (hres t (List.mem_cons_self t ts'))
        (hpar t (List.mem_cons_self t ts')) htm htB hmB
    have hlen : ({ tcur with text := tcur.text ++ t.text } : TextNodeData).text.length =
        tcur.text.length + t.text.length := List.length_append _ _
    have hres' : ∀ u ∈ ts', st4.nodeMap u.key = some (.text u) := by
      intro u hu
      have humem : u.key ∈ ts'.map TextNodeData.key := List.mem_map_of_mem _ hu
      rw [h4oth u.key (fun h => hmnot (List.mem_cons.2 (Or.inr (h ▸ humem))))
        (fun h => hBn (List.mem_cons.2 (Or.inr (List.mem_cons.2 (Or.inr (h ▸ humem))))))
        (fun h => htnot (h ▸ humem))]
      exact hres u (List.mem_cons.2 (Or.inr hu))
    have hpar' : ∀ u ∈ ts', u.parent = some B := fun u hu =>
      hpar u (List.mem_cons.2 (Or.inr hu))
    have hnd' : (mergeKey :: ts'.map TextNodeData.key).Nodup :=
      List.nodup_cons.2 ⟨fun h => hmnot (List.mem_cons.2 (Or.inr h)), hnd3⟩
    have hBn' : B ∉ mergeKey :: ts'.map TextNodeData.key := fun h =>
      (List.mem_cons.1 h).elim (fun h' => hBn (List.mem_cons.2 (Or.inl h')))
        (fun h' => hBn (List.mem_cons.2 (Or.inr (List.mem_cons.2 (Or.inr h')))))
    obtain ⟨st', hrun', hmk', hB', hdel', hoth', hsel', hd', hro', hnk'⟩ :=
      ih st4 { tcur with text := tcur.text ++ t.text }
        { bcur with children := bcur.children.erase t.key }
        a0k f0k a0off f0off restore mergeKey B h4mk h4B hres' hpar' hnd' hBn'
    refine ⟨st', ?_, ?_, ?_, ?_, ?_, ?_, ?_, ?_, ?_⟩
    · rw [List.map_cons, hstep, ← hlen]
      exact hrun'
    · rw [List.map_cons, List.flatten_cons, ← List.append_assoc]
      exact hmk'
    · rw [List.map_cons, List.foldl_cons]
      exact hB'
    · intro u hu
      rcases List.mem_cons.1 hu with rfl | hu'
      · rw [hoth' u.key htm htB htnot]
        exact h4t
      · exact hdel' u hu'
    · intro k hk1 hk2 hk3
      rw [List.map_cons] at hk3
      have hk3a : k ≠ t.key := fun h => hk3 (List.mem_cons.2 (Or.inl h))
      have hk3b : k ∉ ts'.map TextNodeData.key := fun h => hk3 (List.mem_cons.2 (Or.inr h))
      rw [hoth' k hk1 hk2 hk3b, h4oth k hk1 hk2 hk3a]
    · intro sel hs
      have h2 := hsel' _ (h4sel sel hs)
      rw [hlen] at h2
      rw [h2]
      simp only [combineSelLoop]
    · rw [hd', h4d]
    · rw [hro', h4ro]
    · rw [hnk', h4nk]

/-- Characterization of a successful `combineAdjacentTextNodes` call on a
batch `t0 :: ts` of resolvable text nodes: the batch merges into `t0`, the
later nodes disappear from the registry and from `B`'s child list, and the
selection becomes the pure mirror `specCombine`. -/
theorem combineAdjacentTextNodes_spec
    (st : EditorState) (t0 : TextNodeData) (ts : List TextNodeData) (B : NodeKey)
    (bcur : BlockNodeData) (restore : Bool) (sel : Selection)
    (hsel : st.selection = some sel)
    (h0 : st.nodeMap t0.key = some (.text t0))
    (hB : st.nodeMap B = some (.block bcur))
    (hres : ∀ t ∈ ts, st.nodeMap t.key = some (.text t))
    (hpar : ∀ t ∈ ts, t.parent = some B)
    (hnd : (t0.key :: ts.map TextNodeData.key).Nodup)
    (hBn : B ∉ t0.key :: ts.map TextNodeData.key) :
    ∃ st',
      combineAdjacentTextNodes st (t0.key :: ts.map TextNodeData.key) restore =
        Except.ok st' ∧
      st'.nodeMap t0.key = some (.text (mergedTextNode t0 ts)) ∧
      st'.nodeMap B = some (.block { bcur with
        children := (ts.map TextNodeData.key).foldl List.erase bcur.children }) ∧
      (∀ t ∈ ts, st'.nodeMap t.key = none) ∧
      (∀ k, k ≠ t0.key → k ≠ B → k ∉ ts.map TextNodeData.key →
        st'.nodeMap k = st.nodeMap k) ∧
      st'.selection = some (specCombine restore t0 ts sel) ∧
      st'.dirtySubTrees = st.dirtySubTrees ∧ st'.readOnly = st.readOnly ∧
      st'.nextKey = st.nextKey := by
  obtain ⟨st', hrun, hmk', hB', hdel', hoth', hsel', hd', hro', hnk'⟩ :=
    combineLoop_spec ts st t0 bcur sel.anchorKey sel.focusKey sel.anchorOffset
      sel.focusOffset restore t0.key B h0 hB hres hpar hnd hBn
  refine ⟨st', ?_, hmk', hB', hdel', hoth', hsel' sel hsel, hd', hro', hnk'⟩
  simp only [combineAdjacentTextNodes, hsel, h0]
  exact hrun

/-- If no node of the list carries the captured anchor key, the merge loop's
selection mirror leaves the anchor fields untouched. -/
theorem combineSelLoop_anchor_frozen :
    ∀ (post : List TextNodeData) (a0k f0k : NodeKey) (a0off f0off : Nat)
      (mergeKey : NodeKey) (sel : Selection) (L : Nat),
      (∀ u ∈ post, u.key ≠ a0k) →
      (combineSelLoop a0k f0k a0off f0off true mergeKey sel L post).anchorKey =
          sel.anchorKey ∧
      (combineSelLoop a0k f0k a0off f0off true mergeKey sel L post).anchorOffset =
          sel.anchorOffset := by
  intro post
  induction post with
  | nil =>
    intro a0k f0k a0off f0off mergeKey sel L _
    simp [combineSelLoop]
  | cons u post' ih =>
    intro a0k f0k a0off f0off mergeKey sel L hpost
    have h1 : u.key ≠ a0k := hpost u (List.mem_cons_self u post')
    have hpost' : ∀ v ∈ post', v.key ≠ a0k := fun v hv =>
      hpost v (List.mem_cons.2 (Or.inr hv))
    simp only [combineSelLoop]
    by_cases hc2 : u.key = f0k
    · rw [if_pos ⟨by trivial, hc2⟩, if_neg (fun h => h1 h.2)]
      exact ih a0k f0k a0off f0off mergeKey _ (L + u.text.length) hpost'
    · rw [if_neg (fun h => hc2 h.2), if_neg (fun h => h1 h.2)]
      exact ih a0k f0k a0off f0off mergeKey sel (L + u.text.length) hpost'

/-- If no node of the list carries the captured focus key, the merge loop's
selection mirror leaves the focus fields untouched. -/
theorem combineSelLoop_focus_frozen :
    ∀ (post : List TextNodeData) (a0k f0k : NodeKey) (a0off f0off : Nat)
      (mergeKey : NodeKey) (sel : Selection) (L : Nat),
      (∀ u ∈ post, u.key ≠ f0k) →
      (combineSelLoop a0k f0k a0off f0off true mergeKey sel L post).focusKey =
          sel.focusKey ∧
      (combineSelLoop a0k f0k a0off f0off true mergeKey sel L post).focusOffset =
          sel.focusOffset := by
  intro post
  induction post with
  | nil =>
    intro a0k f0k a0off f0off mergeKey sel L _
    simp [combineSelLoop]
  | cons u post' ih =>
    intro a0k f0k a0off f0off mergeKey sel L hpost
    have h2 : u.key ≠ f0k := hpost u (List.mem_cons_self u post')
    have hpost' : ∀ v ∈ post', v.key ≠ f0k := fun v hv =>
      hpost v (List.mem_cons.2 (Or.inr hv))
    simp only [combineSelLoop]
    rw [if_neg (fun h => h2 h.2)]
    by_cases hc1 : u.key = a0k
    · rw [if_pos ⟨by trivial, hc1⟩]
      exact ih a0k f0k a0off f0off mergeKey _ (L + u.text.length) hpost'
    · rw [if_neg (fun h => hc1 h.2)]
      exact ih a0k f0k a0off f0off mergeKey sel (L + u.text.length) hpost'

/-- Anchor rebasing in the selection mirror: when exactly the node `tA`
carries the captured anchor key, the anchor lands on the surviving node at
the accumulated length before `tA`'s text is spliced in, plus the original
offset. -/
theorem combineSelLoop_anchor_rebase :
    ∀ (pre : List TextNodeData) (tA : TextNodeData) (post : List TextNodeData)
      (a0k f0k : NodeKey) (a0off f0off : Nat) (mergeKey : NodeKey)
      (sel : Selection) (L : Nat),
      tA.key = a0k →
      (∀ u ∈ pre, u.key ≠ a0k) →
      (∀ u ∈ post, u.key ≠ a0k) →
      (combineSelLoop a0k f0k a0off f0off true mergeKey sel L
          (pre ++ tA :: post)).anchorKey = mergeKey ∧
      (combineSelLoop a0k f0k a0off f0off true mergeKey sel L
          (pre ++ tA :: post)).anchorOffset =
        L + (pre.map (fun u => u.text.length)).sum + a0off := by
  intro pre
  induction pre with
  | nil =>
    intro tA post a0k f0k a0off f0off mergeKey sel L hA _ hpost
    simp only [List.nil_append, combineSelLoop]
    by_cases hc2 : tA.key = f0k
    · rw [if_pos ⟨by trivial, hc2⟩, if_pos ⟨by trivial, hA⟩]
      obtain ⟨ha, hb⟩ := combineSelLoop_anchor_frozen post a0k f0k a0off f0off
        mergeKey _ (L + tA.text.length) hpost
      exact ⟨ha, by rw [hb]; simp⟩
    · rw [if_neg (fun h => hc2 h.2), if_pos ⟨by trivial, hA⟩]
      obtain ⟨ha, hb⟩ := combineSelLoop_anchor_frozen post a0k f0k a0off f0off
        mergeKey _ (L + tA.text.length) hpost
      exact ⟨ha, by rw [hb]; simp⟩
  | cons u pre' ih =>
    intro tA post a0k f0k a0off f0off mergeKey sel L hA hpre hpost
    have h1 : u.key ≠ a0k := hpre u (List.mem_cons_self u pre')
    have hpre' : ∀ v ∈ pre', v.key ≠ a0k := fun v hv =>
      hpre v (List.mem_cons.2 (Or.inr hv))
    simp only [List.cons_append, combineSelLoop]
    by_cases hc2 : u.key = f0k
    · rw [if_pos ⟨by trivial, hc2⟩, if_neg (fun h => h1 h.2)]
      have h := ih tA post a0k f0k a0off f0off mergeKey
        { sel with focusOffset := L + f0off, focusKey := mergeKey }
        (L + u.text.length) hA hpre' hpost
      exact ⟨h.1, h.2.trans (by simp only [List.map_cons, List.sum_cons]; omega)⟩
    · rw [if_neg (fun h => hc2 h.2), if_neg (fun h => h1 h.2)]
      have h := ih tA post a0k f0k a0off f0off mergeKey sel
        (L + u.text.length) hA hpre' hpost
      exact ⟨h.1, h.2.trans (by simp only [List.map_cons, List.sum_cons]; omega)⟩

/-- Focus rebasing in the selection mirror, symmetric to the anchor case. -/
theorem combineSelLoop_focus_rebase :
    ∀ (pre : List TextNodeData) (tF : TextNodeData) (post : List TextNodeData)
      (a0k f0k : NodeKey) (a0off f0off : Nat) (mergeKey : NodeKey)
      (sel : Selection) (L : Nat),
      tF.key = f0k →
      (∀ u ∈ pre, u.key ≠ f0k) →
      (∀ u ∈ post, u.key ≠ f0k) →
      (combineSelLoop a0k f0k a0off f0off true mergeKey sel L
          (pre ++ tF :: post)).focusKey = mergeKey ∧
      (combineSelLoop a0k f0k a0off f0off true mergeKey sel L
          (pre ++ tF :: post)).focusOffset =
        L + (pre.map (fun u => u.text.length)).sum + f0off := by
  intro pre
  induction pre with
  | nil =>
    intro tF post a0k f0k a0off f0off mergeKey sel L hF _ hpost
    simp only [List.nil_append, combineSelLoop]
    rw [if_pos ⟨by trivial, hF⟩]
    obtain ⟨ha, hb⟩ := combineSelLoop_focus_frozen post a0k f0k a0off f0off
      mergeKey _ (L + tF.text.length) hpost
    exact ⟨ha, by rw [hb]; simp⟩
  | cons u pre' ih =>
    intro tF post a0k f0k a0off f0off mergeKey sel L hF hpre hpost
    have h2 : u.key ≠ f0k := hpre u (List.mem_cons_self u pre')
    have hpre' : ∀ v ∈ pre', v.key ≠ f0k := fun v hv =>
      hpre v (List.mem_cons.2 (Or.inr hv))
    simp only [List.cons_append, combineSelLoop]
    rw [if_neg (fun h => h2 h.2)]
    by_cases hc1 : u.key = a0k
    · rw [if_pos ⟨by trivial, hc1⟩]
      have h := ih tF post a0k f0k a0off f0off mergeKey
        { sel with anchorOffset := L + a0off, anchorKey := mergeKey }
        (L + u.text.length) hF hpre' hpost
      exact ⟨h.1, h.2.trans (by simp only [List.map_cons, List.sum_cons]; omega)⟩
    · rw [if_neg (fun h => hc1 h.2)]
      have h := ih tF post a0k f0k a0off f0off mergeKey sel
        (L + u.text.length) hF hpre' hpost
      exact ⟨h.1, h.2.trans (by simp only [List.map_cons, List.sum_cons]; omega)⟩

/-- A selection-aware merge always ends with a dirty selection in the
mirror. -/
theorem combineSelLoop_isDirty :
    ∀ (ts : List TextNodeData) (a0k f0k : NodeKey) (a0off f0off : Nat)
      (mergeKey : NodeKey) (sel : Selection) (L : Nat),
      (combineSelLoop a0k f0k a0off f0off true mergeKey sel L ts).isDirty = true := by
  intro ts
  induction ts with
  | nil =>
    intro a0k f0k a0off f0off mergeKey sel L
    simp [combineSelLoop]
  | cons u ts' ih =>
    intro a0k f0k a0off f0off mergeKey sel L
    simp only [combineSelLoop]
    exact ih a0k f0k a0off f0off mergeKey _ (L + u.text.length)

/-- Claim C3: during a merge with `restoreSelection` set, each selection
endpoint is treated independently: whenever that endpoint's captured key
equals a node being merged away, it is rebased to the surviving node's key,
at offset equal to the surviving node's accumulated text length at the
moment just before that source node's text is spliced in (the first node's
length plus the lengths of the earlier batch members) plus the endpoint's
original offset; the resulting selection is marked dirty.  The anchor and
focus conclusions are separate implications, so either endpoint may match a
merged-away node without any assumption on the other. -/
theorem C3_selection_rebase
    (st : EditorState) (t0 : TextNodeData) (ts : List TextNodeData) (B : NodeKey)
    (bcur : BlockNodeData) (sel : Selection)
    (hsel : st.selection = some sel)
    (h0 : st.nodeMap t0.key = some (.text t0))
    (hB : st.nodeMap B = some (.block bcur))
    (hres : ∀ t ∈ ts, st.nodeMap t.key = some (.text t))
    (hpar : ∀ t ∈ ts, t.parent = some B)
    (hnd : (t0.key :: ts.map TextNodeData.key).Nodup)
    (hBn : B ∉ t0.key :: ts.map TextNodeData.key) :
    ∃ st' sel',
      combineAdjacentTextNodes st (t0.key :: ts.map TextNodeData.key) true =
        Except.ok st' ∧
      st'.selection = some sel' ∧
      sel'.isDirty = true ∧
      (∀ preA tA postA, ts = preA ++ tA :: postA → tA.key = sel.anchorKey →
        (∀ u ∈ preA, u.key ≠ sel.anchorKey) → (∀ u ∈ postA, u.key ≠ sel.anchorKey) →
        sel'.anchorKey = t0.key ∧
        sel'.anchorOffset =
          t0.text.length + (preA.map (fun u => u.text.length)).sum + sel.anchorOffset) ∧
      (∀ preF tF postF, ts = preF ++ tF :: postF → tF.key = sel.focusKey →
        (∀ u ∈ preF, u.key ≠ sel.focusKey) → (∀ u ∈ postF, u.key ≠ sel.focusKey) →
        sel'.focusKey = t0.key ∧
        sel'.focusOffset =
          t0.text.length + (preF.map (fun u => u.text.length)).sum + sel.focusOffset) := by
  obtain ⟨st', hrun, _, _, _, _, hselr, _, _, _⟩ :=
    combineAdjacentTextNodes_spec st t0 ts B bcur true sel hsel h0 hB hres hpar hnd hBn
  refine ⟨st', specCombine true t0 ts sel, hrun, hselr, ?_, ?_, ?_⟩
  · exact combineSelLoop_isDirty ts sel.anchorKey sel.focusKey sel.anchorOffset
      sel.focusOffset t0.key sel t0.text.length
  · intro preA tA postA hAeq hAk hApre hApost
    constructor
    · show (combineSelLoop sel.anchorKey sel.focusKey sel.anchorOffset sel.focusOffset
        true t0.key sel t0.text.length ts).anchorKey = t0.key
      rw [hAeq]
      exact (combineSelLoop_anchor_rebase preA tA postA sel.anchorKey sel.focusKey
        sel.anchorOffset sel.focusOffset t0.key sel t0.text.length hAk hApre hApost).1
    · show (combineSelLoop sel.anchorKey sel.focusKey sel.anchorOffset sel.focusOffset
        true t0.key sel t0.text.length ts).anchorOffset =
        t0.text.length + (preA.map (fun u => u.text.length)).sum + sel.anchorOffset
      rw [hAeq]
      exact (combineSelLoop_anchor_rebase preA tA postA sel.anchorKey sel.focusKey
        sel.anchorOffset sel.focusOffset t0.key sel t0.text.length hAk hApre hApost).2
  · intro preF tF postF hFeq hFk hFpre hFpost
    constructor
    · show (combineSelLoop sel.anchorKey sel.focusKey sel.anchorOffset sel.focusOffset
        true t0.key sel t0.text.length ts).focusKey = t0.key
      rw [hFeq]
      exact (combineSelLoop_focus_rebase preF tF postF sel.anchorKey sel.focusKey
        sel.anchorOffset sel.focusOffset t0.key sel t0.text.length hFk hFpre hFpost).1
    · show (combineSelLoop sel.anchorKey sel.focusKey sel.anchorOffset sel.focusOffset
        true t0.key sel t0.text.length ts).focusOffset =
        t0.text.length + (preF.map (fun u => u.text.length)).sum + sel.focusOffset
      rw [hFeq]
      exact (combineSelLoop_focus_rebase preF tF postF sel.anchorKey sel.focusKey
        sel.anchorOffset sel.focusOffset t0.key sel t0.text.length hFk hFpre hFpost).2

/-- Witness for C3.  At `stC3` (children `ab` and `cd`, selection collapsed
in the second node at offset 1) both endpoints rebase to the surviving key 2
at offset 3 = length "ab" + 1 and the selection is dirtied.  At `stC3b` only
the anchor's key matches a merged-away node (the focus sits on unrelated key
99): the anchor alone rebases, and the full normalization pass shows the
focus left untouched. -/
theorem C3_witness :
    (∃ st' sel',
      combineAdjacentTextNodes stC3 [2, 3] true = Except.ok st' ∧
      st'.selection = some sel' ∧ sel'.isDirty = true ∧
      sel'.anchorKey = 2 ∧ sel'.anchorOffset = 3 ∧
      sel'.focusKey = 2 ∧ sel'.focusOffset = 3) ∧
    (∃ st' sel',
      combineAdjacentTextNodes stC3b [2, 3] true = Except.ok st' ∧
      st'.selection = some sel' ∧ sel'.isDirty = true ∧
      sel'.anchorKey = 2 ∧ sel'.anchorOffset = 3) ∧
    resultSelection (normalizeTextNodes stC3 true 1) = some (some ⟨2, 3, 2, 3, true⟩) ∧
    resultSelection (normalizeTextNodes stC3b true 1) = some (some ⟨2, 3, 99, 5, true⟩) := by
  refine ⟨?_, ?_, by decide, by decide⟩
  · obtain ⟨st', sel', h1, h2, h3, hA, hF⟩ :=
      C3_selection_rebase stC3 ⟨2, some 1, 0, "ab".toList, none, false, false⟩
        [⟨3, some 1, 0, "cd".toList, none, false, false⟩] 1 ⟨1, none, 0, [2, 3]⟩
        ⟨3, 1, 3, 1, false⟩
        (by decide) (by decide) (by decide) (by decide) (by decide) (by decide) (by decide)
    obtain ⟨ha1, ha2⟩ := hA [] ⟨3, some 1, 0, "cd".toList, none, false, false⟩ [] rfl
      (by decide) (by decide) (by decide)
    obtain ⟨hf1, hf2⟩ := hF [] ⟨3, some 1, 0, "cd".toList, none, false, false⟩ [] rfl
      (by decide) (by decide) (by decide)
    exact ⟨st', sel', h1, h2, h3, ha1, ha2, hf1, hf2⟩
  · obtain ⟨st', sel', h1, h2, h3, hA, _⟩ :=
      C3_selection_rebase stC3b ⟨2, some 1, 0, "ab".toList, none, false, false⟩
        [⟨3, some 1, 0, "cd".toList, none, false, false⟩] 1 ⟨1, none, 0, [2, 3]⟩
        ⟨3, 1, 99, 5, false⟩
        (by decide) (by decide) (by decide) (by decide) (by decide) (by decide) (by decide)
    obtain ⟨ha1, ha2⟩ := hA [] ⟨3, some 1, 0, "cd".toList, none, false, false⟩ [] rfl
      (by decide) (by decide) (by decide)
    exact ⟨st', sel', h1, h2, h3, ha1, ha2⟩

/-! ## Claims C2 and C7: the normalization scan simulated by its pure mirror -/

/-- An eligible scan entry is a text node carrying exactly the returned
data. -/
theorem eligibleText_some (n : OutlineNode) (t : TextNodeData)
    (h : eligibleText n = some t) : n = OutlineNode.text t := by
  cases n with
  | text u =>
    simp only [eligibleText] at h
    split at h
    · rw [Option.some_inj.1 h]
    · exact Option.noConfusion h
  | block b =>
    simp only [eligibleText] at h
    exact Option.noConfusion h

/-- Erasing, one by one, the middle segment of a duplicate-free list leaves
the outer segments in place. -/
theorem foldl_erase_middle :
    ∀ (ks pre suf : List NodeKey), (pre ++ (ks ++ suf)).Nodup →
      List.foldl List.erase (pre ++ (ks ++ suf)) ks = pre ++ suf := by
  intro ks
  induction ks with
  | nil =>
    intro pre suf _
    rw [List.nil_append, List.foldl_nil]
  | cons k ks' ih =>
    intro pre suf hnd
    have hknotpre : k ∉ pre := by
      intro hk
      exact (List.disjoint_of_nodup_append hnd) hk (List.mem_cons_self k (ks' ++ suf))
    have hstep : (pre ++ (k :: ks' ++ suf)).erase k = pre ++ (ks' ++ suf) := by
      rw [List.erase_append_right _ hknotpre, List.cons_append, List.erase_cons_head]
    rw [List.foldl_cons, hstep]
    refine ih pre suf ?_
    refine List.Sublist.nodup ?_ hnd
    exact List.Sublist.append_left (List.sublist_cons_self k (ks' ++ suf)) pre

/-- A key list whose every node resolves to itself resolves back to the node
list. -/
theorem resolveKeys_of_resolved (st : EditorState) :
    ∀ (out : List OutlineNode), (∀ n ∈ out, st.nodeMap n.key = some n) →
      resolveKeys st (out.map OutlineNode.key) = out := by
  intro out
  induction out with
  | nil => intro _; rfl
  | cons n out' ih =>
    intro hres
    rw [List.map_cons]
    simp only [resolveKeys, hres n (List.mem_cons_self n out')]
    rw [ih (fun m hm => hres m (List.mem_cons.2 (Or.inr hm)))]

/-- Closing the pending batch: the conditional merge performed by the scan
whenever a batch ends (mid-scan or at the end of the child list).  A batch
of length at most one leaves the state untouched; a longer batch merges into
its first node, erases the other batch keys from the block's child list, and
rebases the selection, exactly as the pure `specEmit` describes. -/
theorem closeBatch_spec
    (st : EditorState) (B : NodeKey) (bcur : BlockNodeData)
    (doneKeys : List NodeKey) (batch : List TextNodeData) (sel : Selection)
    (suffixKeys : List NodeKey) (restore : Bool)
    (hB : st.nodeMap B = some (.block bcur))
    (hch : bcur.children = doneKeys ++ (batch.map TextNodeData.key ++ suffixKeys))
    (hnd : bcur.children.Nodup)
    (hBn : B ∉ bcur.children)
    (hbres : ∀ t ∈ batch, st.nodeMap t.key = some (.text t))
    (hbpar : ∀ t ∈ batch, t.parent = some B)
    (hsel : st.selection = some sel) :
    ∃ st1,
      (if (batch.map TextNodeData.key).length > 1
        then combineAdjacentTextNodes st (batch.map TextNodeData.key) restore
        else Except.ok st) = Except.ok st1 ∧
      st1.nodeMap B = some (.block { bcur with children :=
        (doneKeys ++ (specEmit restore batch sel).1.map OutlineNode.key) ++ suffixKeys }) ∧
      List.Sublist
        ((doneKeys ++ (specEmit restore batch sel).1.map OutlineNode.key) ++ suffixKeys)
        bcur.children ∧
      (∀ n ∈ (specEmit restore batch sel).1, st1.nodeMap n.key = some n) ∧
      (∀ k, k ≠ B → k ∉ batch.map TextNodeData.key → st1.nodeMap k = st.nodeMap k) ∧
      st1.selection = some (specEmit restore batch sel).2 ∧
      st1.dirtySubTrees = st.dirtySubTrees ∧ st1.readOnly = st.readOnly ∧
      st1.nextKey = st.nextKey := by
  cases batch with
  | nil =>
    have hc : (doneKeys ++ ([] : List NodeKey)) ++ suffixKeys = bcur.children := by
      rw [hch]
      simp
    refine ⟨st, ?_, ?_, ?_, ?_, ?_, ?_, rfl, rfl, rfl⟩
    · simp
    · simp only [specEmit, List.map_nil]
      rw [hc]
      exact hB
    · simp only [specEmit, List.map_nil]
      rw [hc]
    · intro n hn
      simp only [specEmit, List.map_nil] at hn
      exact absurd hn (List.not_mem_nil n)
    · intro k _ _
      rfl
    · simp only [specEmit]
      exact hsel
  | cons b0 batch' =>
    cases batch' with
    | nil =>
      have hc : (doneKeys ++ [b0.key]) ++ suffixKeys = bcur.children := by
        rw [hch]
        simp
      refine ⟨st, ?_, ?_, ?_, ?_, ?_, ?_, rfl, rfl, rfl⟩
      · simp
      · simp only [specEmit, List.map_cons, List.map_nil, OutlineNode.key]
        rw [hc]
        exact hB
      · simp only [specEmit, List.map_cons, List.map_nil, OutlineNode.key]
        rw [hc]
      · intro n hn
        simp only [specEmit] at hn
        rw [List.map_cons, List.map_nil, List.mem_singleton] at hn
        subst hn
        exact hbres b0 (List.mem_cons_self b0 [])
      · intro k _ _
        rfl
      · simp only [specEmit]
        exact hsel
    | cons b1 bs =>
      have harr : bcur.children =
          (doneKeys ++ [b0.key]) ++ ((b1 :: bs).map TextNodeData.key ++ suffixKeys) := by
        rw [hch]
        simp [List.append_assoc]
      have hsub0 : List.Sublist
          ((b0.key :: (b1 :: bs).map TextNodeData.key) ++ suffixKeys) bcur.children := by
        rw [hch, List.map_cons]
        exact List.sublist_append_right _ _
      have hndb : (b0.key :: (b1 :: bs).map TextNodeData.key).Nodup :=
        ((List.sublist_append_left _ _).trans hsub0).nodup hnd
      have hBnb : B ∉ b0.key :: (b1 :: bs).map TextNodeData.key := fun h =>
        hBn (hsub0.mem (List.mem_append.2 (Or.inl h)))
      obtain ⟨st1, hrun, hmk', hB', hdel', hoth', hselr, hd', hro', hnk'⟩ :=
        combineAdjacentTextNodes_spec st b0 (b1 :: bs) B bcur restore sel hsel
          (hbres b0 (List.mem_cons_self b0 (b1 :: bs)))
          hB (fun u hu => hbres u (List.mem_cons.2 (Or.inr hu)))
          (fun u hu => hbpar u (List.mem_cons.2 (Or.inr hu))) hndb hBnb
      have hfold := foldl_erase_middle ((b1 :: bs).map TextNodeData.key)
        (doneKeys ++ [b0.key]) suffixKeys (by rw [← harr]; exact hnd)
      rw [harr, hfold] at hB'
      refine ⟨st1, ?_, ?_, ?_, ?_, ?_, ?_, hd', hro', hnk'⟩
      · rw [if_pos (by simp only [List.map_cons, List.length_cons]; omega)]
        rw [List.map_cons]
        exact hrun
      · simp only [specEmit]
        exact hB'
      · simp only [specEmit]
        rw [harr]
        exact List.Sublist.append_left (List.sublist_append_right _ _) _
      · intro m hm
        simp only [specEmit] at hm
        rw [List.mem_singleton] at hm
        subst hm
        exact hmk'
      · intro k hkB hkbk
        rw [List.map_cons] at hkbk
        exact hoth' k (fun h => hkbk (List.mem_cons.2 (Or.inl h))) hkB
          (fun h => hkbk (List.mem_cons.2 (Or.inr h)))
      · simp only [specEmit]
        exact hselr

/-- The normalization scan loop is simulated by the pure mirror `specScan`:
under local well-formedness of the block (duplicate-free child keys not
containing the block, each pending and remaining node resolving to itself,
text nodes parented to the block), the loop succeeds, rewrites the block's
child list to the emitted survivors, resolves every emitted node to its
mirror value, touches no other key, and drives the selection exactly as the
mirror does. -/
theorem normalizeLoop_sim :
    ∀ (ns : List OutlineNode) (st : EditorState) (bcur : BlockNodeData)
      (doneKeys : List NodeKey) (batch : List TextNodeData) (sel : Selection)
      (lf : Option Nat) (lu : Option String) (restore : Bool) (B : NodeKey),
      st.nodeMap B = some (.block bcur) →
      bcur.children = doneKeys ++ (batch.map TextNodeData.key ++ ns.map OutlineNode.key) →
      bcur.children.Nodup →
      B ∉ bcur.children →
      (∀ n ∈ ns, st.nodeMap n.key = some n) →
      (∀ t ∈ batch, st.nodeMap t.key = some (.text t)) →
      (∀ t ∈ batch, t.parent = some B) →
      (∀ n ∈ ns, ∀ t, n = OutlineNode.text t → t.parent = some B) →
      st.selection = some sel →
      ∃ st',
        normalizeLoop restore st lf lu (batch.map TextNodeData.key)
            (ns.map OutlineNode.key) = Except.ok st' ∧
        st'.nodeMap B = some (.block { bcur with children :=
          doneKeys ++ (specScan restore lf lu batch sel ns).1.map OutlineNode.key }) ∧
        (∀ n ∈ (specScan restore lf lu batch sel ns).1, st'.nodeMap n.key = some n) ∧
        (∀ k, k ≠ B → k ∉ batch.map TextNodeData.key → k ∉ ns.map OutlineNode.key →
          st'.nodeMap k = st.nodeMap k) ∧
        st'.selection = some (specScan restore lf lu batch sel ns).2 ∧
        st'.dirtySubTrees = st.dirtySubTrees ∧ st'.readOnly = st.readOnly ∧
        st'.nextKey = st.nextKey := by
  intro ns
  induction ns with
  | nil =>
    intro st bcur doneKeys batch sel lf lu restore B hB hch hnd hBn hres hbres hbpar hnspar hsel
    obtain ⟨st1, hrun, hB1, hsub1, hemres, hoth1, hsel1, hd1, hro1, hnk1⟩ :=
      closeBatch_spec st B bcur doneKeys batch sel [] restore hB
        (by rw [hch]; simp) hnd hBn hbres hbpar hsel
    refine ⟨st1, ?_, ?_, ?_, ?_, ?_, hd1, hro1, hnk1⟩
    · simp only [List.map_nil, normalizeLoop]
      exact hrun
    · simp only [List.map_nil, specScan]
      rw [List.append_nil] at hB1
      exact hB1
    · simp only [List.map_nil, specScan]
      exact hemres
    · intro k hkB hkbk _
      exact hoth1 k hkB hkbk
    · simp only [List.map_nil, specScan]
      exact hsel1
  | cons n ns' ih =>
    intro st bcur doneKeys batch sel lf lu restore B hB hch hnd hBn hres hbres hbpar hnspar hsel
    have hn := hres n (List.mem_cons_self n ns')
    rw [List.map_cons] at hch
    simp only [List.map_cons, normalizeLoop, hn]
    cases het : eligibleText n with
    | some t =>
      have hnt := eligibleText_some n t het
      subst hnt
      simp only [het]
      simp only [specScan, het]
      by_cases hcompat : (lf = none ∨ lf = some t.flags) ∧ (lu = none ∨ lu = t.url)
      · simp only [if_pos hcompat]
        have hch' : bcur.children =
            doneKeys ++ ((batch ++ [t]).map TextNodeData.key ++ ns'.map OutlineNode.key) := by
          rw [hch]
          simp [OutlineNode.key, List.append_assoc]
        obtain ⟨st', hrun, hB', hresnew, hoth, hsel', hd, hro, hnk⟩ :=
          ih st bcur doneKeys (batch ++ [t]) sel (some t.flags) t.url restore B hB hch' hnd hBn
            (fun m hm => hres m (List.mem_cons.2 (Or.inr hm)))
            (fun u hu => (List.mem_append.1 hu).elim (fun h => hbres u h)
              (fun h => by rw [List.mem_singleton] at h; subst h; exact hn))
            (fun u hu => (List.mem_append.1 hu).elim (fun h => hbpar u h)
              (fun h => by
                rw [List.mem_singleton] at h
                subst h
                exact hnspar (OutlineNode.text u) (List.mem_cons_self _ _) u rfl))
            (fun m hm cm hcm => hnspar m (List.mem_cons.2 (Or.inr hm)) cm hcm)
            hsel
        refine ⟨st', ?_, hB', hresnew, ?_, hsel', hd, hro, hnk⟩
        · have hlist : batch.map TextNodeData.key ++ [(OutlineNode.text t).key] =
              (batch ++ [t]).map TextNodeData.key := by simp [OutlineNode.key]
          rw [hlist]
          exact hrun
        · intro k hkB hkbk hknk
          have hkt : k ∉ [t].map TextNodeData.key := by
            intro h
            rw [List.map_cons, List.map_nil, List.mem_singleton] at h
            exact hknk (List.mem_cons.2 (Or.inl h))
          have hknk' : k ∉ ns'.map OutlineNode.key := fun h =>
            hknk (List.mem_cons.2 (Or.inr h))
          refine hoth k hkB ?_ hknk'
          rw [List.map_append]
          intro hmem
          rcases List.mem_append.1 hmem with h | h
          · exact hkbk h
          · exact hkt h
      · simp only [if_neg hcompat]
        obtain ⟨st1, hrun1, hB1, hsub1, hemres1, hoth1, hsel1, hd1, hro1, hnk1⟩ :=
          closeBatch_spec st B bcur doneKeys batch sel
            ((OutlineNode.text t).key :: ns'.map OutlineNode.key) restore hB hch hnd hBn
            hbres hbpar hsel
        have hnd1 : ((doneKeys ++ (specEmit restore batch sel).1.map OutlineNode.key) ++
            ((OutlineNode.text t).key :: ns'.map OutlineNode.key)).Nodup :=
          hsub1.nodup hnd
        have hdisj1 := List.disjoint_of_nodup_append hnd1
        have hndsuf : ((OutlineNode.text t).key :: ns'.map OutlineNode.key).Nodup :=
          ((List.sublist_append_right _ _).nodup hnd1)
        have hBn1 : B ∉ (doneKeys ++ (specEmit restore batch sel).1.map OutlineNode.key) ++
            ((OutlineNode.text t).key :: ns'.map OutlineNode.key) := fun h =>
          hBn (hsub1.mem h)
        have hdisjbk := List.disjoint_of_nodup_append
          ((List.sublist_append_right doneKeys _).nodup (by rw [← hch]; exact hnd))
        have hkeyin : ∀ k, k ∈ (OutlineNode.text t).key :: ns'.map OutlineNode.key →
            k ∈ bcur.children := fun k hk => by
          rw [hch]
          exact List.mem_append.2 (Or.inr (List.mem_append.2 (Or.inr hk)))
        have hres1 : ∀ m ∈ ns', st1.nodeMap m.key = some m := by
          intro m hm
          have hmem : m.key ∈ (OutlineNode.text t).key :: ns'.map OutlineNode.key :=
            List.mem_cons.2 (Or.inr (List.mem_map_of_mem _ hm))
          rw [hoth1 m.key (fun h => hBn (h ▸ hkeyin m.key hmem))
            (fun h => hdisjbk h hmem)]
          exact hres m (List.mem_cons.2 (Or.inr hm))
        have htkey : (OutlineNode.text t).key ∈ (OutlineNode.text t).key ::
            ns'.map OutlineNode.key := List.mem_cons_self _ _
        have hbres1 : ∀ u ∈ [t], st1.nodeMap u.key = some (OutlineNode.text u) := by
          intro u hu
          rw [List.mem_singleton] at hu
          subst hu
          rw [hoth1 u.key (fun h => hBn (h ▸ hkeyin u.key htkey))
            (fun h => hdisjbk h htkey)]
          exact hn
        obtain ⟨st', hrun', hB', hres', hoth', hsel', hd', hro', hnk'⟩ :=
          ih st1 { bcur with children :=
              (doneKeys ++ (specEmit restore batch sel).1.map OutlineNode.key) ++
              ((OutlineNode.text t).key :: ns'.map OutlineNode.key) }
            (doneKeys ++ (specEmit restore batch sel).1.map OutlineNode.key) [t]
            (specEmit restore batch sel).2 (some t.flags) t.url restore B hB1
            (by simp [OutlineNode.key]) hnd1 hBn1 hres1 hbres1
            (fun u hu => by
              rw [List.mem_singleton] at hu
              subst hu
              exact hnspar (OutlineNode.text u) (List.mem_cons_self _ _) u rfl)
            (fun m hm cm hcm => hnspar m (List.mem_cons.2 (Or.inr hm)) cm hcm)
            hsel1
        refine ⟨st', ?_, ?_, ?_, ?_, ?_, ?_, ?_, ?_⟩
        · rw [hrun1]
          exact hrun'
        · rw [List.map_append, ← List.append_assoc]
          exact hB'
        · intro m hm
          rcases List.mem_append.1 hm with hmem | hmout
          · have hmk : m.key ∈ doneKeys ++ (specEmit restore batch sel).1.map OutlineNode.key :=
              List.mem_append.2 (Or.inr (List.mem_map_of_mem _ hmem))
            have hmkB : m.key ≠ B := fun h =>
              hBn1 (h ▸ List.mem_append.2 (Or.inl hmk))
            have hmknotsuf : m.key ∉ (OutlineNode.text t).key :: ns'.map OutlineNode.key :=
              fun h => hdisj1 hmk h
            rw [hoth' m.key hmkB
              (fun h => hmknotsuf (by
                rw [List.map_cons, List.map_nil, List.mem_singleton] at h
                exact List.mem_cons.2 (Or.inl h)))
              (fun h => hmknotsuf (List.mem_cons.2 (Or.inr h)))]
            exact hemres1 m hmem
          · exact hres' m hmout
        · intro k hkB hkbk hknk
          have hkt : k ∉ [t].map TextNodeData.key := by
            intro h
            rw [List.map_cons, List.map_nil, List.mem_singleton] at h
            exact hknk (List.mem_cons.2 (Or.inl h))
          have hknk' : k ∉ ns'.map OutlineNode.key := fun h =>
            hknk (List.mem_cons.2 (Or.inr h))
          rw [hoth' k hkB hkt hknk']
          exact hoth1 k hkB hkbk
        · exact hsel'
        · rw [hd', hd1]
        · rw [hro', hro1]
        · rw [hnk', hnk1]
    | none =>
      simp only [het]
      simp only [specScan, het]
      obtain ⟨st1, hrun1, hB1, hsub1, hemres1, hoth1, hsel1, hd1, hro1, hnk1⟩ :=
        closeBatch_spec st B bcur doneKeys batch sel
          (n.key :: ns'.map OutlineNode.key) restore hB hch hnd hBn hbres hbpar hsel
      have hnd1 : ((doneKeys ++ (specEmit restore batch sel).1.map OutlineNode.key) ++
          (n.key :: ns'.map OutlineNode.key)).Nodup := hsub1.nodup hnd
      have hdisj1 := List.disjoint_of_nodup_append hnd1
      have hndsuf : (n.key :: ns'.map OutlineNode.key).Nodup :=
        ((List.sublist_append_right _ _).nodup hnd1)
      have hBn1 : B ∉ (doneKeys ++ (specEmit restore batch sel).1.map OutlineNode.key) ++
          (n.key :: ns'.map OutlineNode.key) := fun h => hBn (hsub1.mem h)
      have hdisjbk := List.disjoint_of_nodup_append
        ((List.sublist_append_right doneKeys _).nodup (by rw [← hch]; exact hnd))
      have hkeyin : ∀ k, k ∈ n.key :: ns'.map OutlineNode.key → k ∈ bcur.children :=
        fun k hk => by
          rw [hch]
          exact List.mem_append.2 (Or.inr (List.mem_append.2 (Or.inr hk)))
      have hres1 : ∀ m ∈ ns', st1.nodeMap m.key = some m := by
        intro m hm
        have hmem : m.key ∈ n.key :: ns'.map OutlineNode.key :=
          List.mem_cons.2 (Or.inr (List.mem_map_of_mem _ hm))
        rw [hoth1 m.key (fun h => hBn (h ▸ hkeyin m.key hmem)) (fun h => hdisjbk h hmem)]
        exact hres m (List.mem_cons.2 (Or.inr hm))
      have hnkey : n.key ∈ n.key :: ns'.map OutlineNode.key := List.mem_cons_self _ _
      have hnres1 : st1.nodeMap n.key = some n := by
        rw [hoth1 n.key (fun h => hBn (h ▸ hkeyin n.key hnkey)) (fun h => hdisjbk h hnkey)]
        exact hn
      obtain ⟨st', hrun', hB', hres', hoth', hsel', hd', hro', hnk'⟩ :=
        ih st1 { bcur with children :=
            (doneKeys ++ (specEmit restore batch sel).1.map OutlineNode.key) ++
            (n.key :: ns'.map OutlineNode.key) }
          ((doneKeys ++ (specEmit restore batch sel).1.map OutlineNode.key) ++ [n.key]) []
          (specEmit restore batch sel).2 none lu restore B hB1
          (by simp [List.append_assoc]) hnd1 hBn1 hres1
          (fun u hu => absurd hu (List.not_mem_nil u))
          (fun u hu => absurd hu (List.not_mem_nil u))
          (fun m hm cm hcm => hnspar m (List.mem_cons.2 (Or.inr hm)) cm hcm)
          hsel1
      refine ⟨st', ?_, ?_, ?_, ?_, ?_, ?_, ?_, ?_⟩
      · rw [hrun1]
        exact hrun'
      · rw [List.map_append, List.map_cons]
        have hassoc : doneKeys ++ ((specEmit restore batch sel).1.map OutlineNode.key ++
            n.key :: (specScan restore none lu [] (specEmit restore batch sel).2 ns').1.map
              OutlineNode.key) =
            ((doneKeys ++ (specEmit restore batch sel).1.map OutlineNode.key) ++ [n.key]) ++
            (specScan restore none lu [] (specEmit restore batch sel).2 ns').1.map
              OutlineNode.key := by
          simp [List.append_assoc]
        rw [hassoc]
        exact hB'
      · intro m hm
        rcases List.mem_append.1 hm with hmem | hmout
        · have hmk : m.key ∈ doneKeys ++ (specEmit restore batch sel).1.map OutlineNode.key :=
            List.mem_append.2 (Or.inr (List.mem_map_of_mem _ hmem))
          have hmkB : m.key ≠ B := fun h => hBn1 (h ▸ List.mem_append.2 (Or.inl hmk))
          have hmknotsuf : m.key ∉ n.key :: ns'.map OutlineNode.key :=
            fun h => hdisj1 hmk h
          rw [hoth' m.key hmkB (List.not_mem_nil m.key ∘ id)
            (fun h => hmknotsuf (List.mem_cons.2 (Or.inr h)))]
          exact hemres1 m hmem
        · rcases List.mem_cons.1 hmout with rfl | hmout'
          · have hnnot : m.key ∉ ns'.map OutlineNode.key :=
              (List.nodup_cons.1 hndsuf).1
            rw [hoth' m.key (fun h => hBn1 (h ▸ List.mem_append.2 (Or.inr hnkey)))
              (List.not_mem_nil m.key ∘ id) hnnot]
            exact hnres1
          · exact hres' m hmout'
      · intro k hkB hkbk hknk
        have hknk' : k ∉ ns'.map OutlineNode.key := fun h =>
          hknk (List.mem_cons.2 (Or.inr h))
        rw [hoth' k hkB (List.not_mem_nil k ∘ id) hknk']
        exact hoth1 k hkB hkbk
      · exact hsel'
      · rw [hd', hd1]
      · rw [hro', hro1]
      · rw [hnk', hnk1]

/-- Full characterization of `normalizeTextNodes` on a locally well-formed
block: it succeeds and produces exactly the children, registry entries and
selection computed by the pure mirror `specScan`. -/
theorem normalizeTextNodes_spec (st : EditorState) (key : NodeKey) (b : BlockNodeData)
    (sel : Selection) (restore : Bool)
    (hwf : WFBlock st key b) (hro : st.readOnly = false)
    (hsel : st.selection = some sel) :
    ∃ st',
      normalizeTextNodes st restore key = Except.ok st' ∧
      st'.nodeMap key = some (.block { b with children :=
        (specScan restore none none [] sel (getChildren st key)).1.map OutlineNode.key }) ∧
      getChildren st' key = (specScan restore none none [] sel (getChildren st key)).1 ∧
      st'.selection = some (specScan restore none none [] sel (getChildren st key)).2 ∧
      st'.dirtySubTrees = st.dirtySubTrees ∧ st'.readOnly = st.readOnly ∧
      st'.nextKey = st.nextKey ∧
      (∀ n ∈ (specScan restore none none [] sel (getChildren st key)).1,
        st'.nodeMap n.key = some n) := by
  obtain ⟨hBres, hnd, hkn, hcoh, hsome, htextpar⟩ := hwf
  have hgc : getChildren st key = b.children.filterMap st.nodeMap := by
    simp only [getChildren, hBres]
    exact resolveKeys_eq_filterMap st b.children
  have hns : ∀ n ∈ getChildren st key, st.nodeMap n.key = some n := by
    intro n hn
    rw [hgc] at hn
    obtain ⟨ck, hck, hckres⟩ := List.mem_filterMap.1 hn
    rw [hcoh ck hck n hckres]
    exact hckres
  have hmapkey : (getChildren st key).map OutlineNode.key = b.children := by
    rw [hgc]
    refine filterMap_key_self st b.children ?_
    intro ck hck
    cases hx : st.nodeMap ck with
    | none =>
      have hs := hsome ck hck
      rw [hx] at hs
      exact absurd hs (by simp)
    | some n => exact ⟨n, rfl, hcoh ck hck n hx⟩
  have hch : b.children =
      [] ++ (([] : List TextNodeData).map TextNodeData.key ++
        (getChildren st key).map OutlineNode.key) := by
    rw [hmapkey]
    rfl
  have hpar : ∀ n ∈ getChildren st key, ∀ t, n = OutlineNode.text t →
      t.parent = some key := by
    intro n hn t hnt
    subst hnt
    rw [hgc] at hn
    obtain ⟨ck, hck, hckres⟩ := List.mem_filterMap.1 hn
    exact htextpar ck hck t hckres
  obtain ⟨st', hrun, hB', hres', hoth', hsel', hd', hro', hnk'⟩ :=
    normalizeLoop_sim (getChildren st key) st b [] [] sel none none restore key
      hBres hch hnd hkn hns (fun t ht => absurd ht (List.not_mem_nil t))
      (fun t ht => absurd ht (List.not_mem_nil t)) hpar hsel
  refine ⟨st', ?_, ?_, ?_, hsel', hd', hro', hnk', hres'⟩
  · unfold normalizeTextNodes
    rw [if_neg (by simp [hro])]
    exact hrun
  · exact hB'
  · simp only [getChildren, hB']
    exact resolveKeys_of_resolved st' _ hres'

/-- Claim C2 (amended): `normalizeTextNodes` on a locally well-formed block
scans the children left to right exactly as the pure mirror `specScan`
describes — batching adjacent non-immutable, non-segmented text nodes whose
flags match the batch reference and whose url passes the `lastURL` test
(which conflates an unset reference with a `null` url, and which survives
ineligible nodes un-reset), merging every closed batch of length above one
into its first node by concatenating the texts in batch order. -/
theorem C2_normalize_scan (st : EditorState) (key : NodeKey) (b : BlockNodeData)
    (sel : Selection) (restore : Bool)
    (hwf : WFBlock st key b) (hro : st.readOnly = false)
    (hsel : st.selection = some sel) :
    ∃ st',
      normalizeTextNodes st restore key = Except.ok st' ∧
      st'.nodeMap key = some (.block { b with children :=
        (specScan restore none none [] sel (getChildren st key)).1.map OutlineNode.key }) ∧
      getChildren st' key = (specScan restore none none [] sel (getChildren st key)).1 ∧
      st'.selection = some (specScan restore none none [] sel (getChildren st key)).2 ∧
      st'.dirtySubTrees = st.dirtySubTrees ∧ st'.readOnly = st.readOnly ∧
      st'.nextKey = st.nextKey := by
  obtain ⟨st', h1, h2, h3, h4, h5, h6, h7, _⟩ :=
    normalizeTextNodes_spec st key b sel restore hwf hro hsel
  exact ⟨st', h1, h2, h3, h4, h5, h6, h7⟩

/-- Witness for C2 at the spec's merge example `stC2ex`
(children ab/flags 0, cd/flags 0, ef/flags 1): normalization merges the
first two and leaves the third, yielding [abcd/flags 0, ef/flags 1]. -/
theorem C2_witness :
    ∃ st', normalizeTextNodes stC2ex false 1 = Except.ok st' ∧
      getChildren st' 1 = [mkText 2 (some 1) "abcd" 0 none, mkText 4 (some 1) "ef" 1 none] := by
  have hcohC2 : ∀ ck ∈ [2, 3, 4], ∀ n : OutlineNode,
      stC2ex.nodeMap ck = some n → n.key = ck := by
    intro ck hck n hn
    simp only [List.mem_cons, List.not_mem_nil, or_false] at hck
    rcases hck with rfl | rfl | rfl
    · have h2 : stC2ex.nodeMap 2 = some (mkText 2 (some 1) "ab" 0 none) := by decide
      rw [h2, Option.some.injEq] at hn
      subst hn
      decide
    · have h3 : stC2ex.nodeMap 3 = some (mkText 3 (some 1) "cd" 0 none) := by decide
      rw [h3, Option.some.injEq] at hn
      subst hn
      decide
    · have h4 : stC2ex.nodeMap 4 = some (mkText 4 (some 1) "ef" 1 none) := by decide
      rw [h4, Option.some.injEq] at hn
      subst hn
      decide
  have hparC2 : ∀ ck ∈ [2, 3, 4], ∀ t : TextNodeData,
      stC2ex.nodeMap ck = some (OutlineNode.text t) → t.parent = some 1 := by
    intro ck hck t ht
    simp only [List.mem_cons, List.not_mem_nil, or_false] at hck
    rcases hck with rfl | rfl | rfl
    · have h2 : stC2ex.nodeMap 2 = some (mkText 2 (some 1) "ab" 0 none) := by decide
      rw [h2, mkText, Option.some.injEq, OutlineNode.text.injEq] at ht
      rw [← ht]
    · have h3 : stC2ex.nodeMap 3 = some (mkText 3 (some 1) "cd" 0 none) := by decide
      rw [h3, mkText, Option.some.injEq, OutlineNode.text.injEq] at ht
      rw [← ht]
    · have h4 : stC2ex.nodeMap 4 = some (mkText 4 (some 1) "ef" 1 none) := by decide
      rw [h4, mkText, Option.some.injEq, OutlineNode.text.injEq] at ht
      rw [← ht]
  obtain ⟨st', hok, _, hch, _, _, _, _⟩ :=
    C2_normalize_scan stC2ex 1 ⟨1, none, 0, [2, 3, 4]⟩ selDummy false
      ⟨by decide, by decide, by decide, hcohC2, by decide, hparC2⟩ (by decide) (by decide)
  refine ⟨st', hok, ?_⟩
  rw [hch]
  decide

/-- Eligibility facts carried by a successful `eligibleText`. -/
theorem eligibleText_flags (n : OutlineNode) (t : TextNodeData)
    (h : eligibleText n = some t) : t.immutable = false ∧ t.segmented = false := by
  cases n with
  | text u =>
    simp only [eligibleText] at h
    split at h
    · rename_i hc
      rw [Bool.and_eq_true, Bool.not_eq_true', Bool.not_eq_true'] at hc
      rw [← Option.some_inj.1 h]
      exact hc
    · exact Option.noConfusion h
  | block b =>
    simp only [eligibleText] at h
    exact Option.noConfusion h

/-- A non-immutable, non-segmented text node is eligible. -/
theorem eligibleText_of_flags (t : TextNodeData) (hi : t.immutable = false)
    (hs : t.segmented = false) : eligibleText (OutlineNode.text t) = some t := by
  simp [eligibleText, hi, hs]

/-- The scan's output on a non-empty pending batch starts with the batch's
survivor: a text node sharing the first batch member's flags, eligibility
bits and url. -/
theorem specScan_head_batch :
    ∀ (ns : List OutlineNode) (restore : Bool) (lf : Option Nat) (lu : Option String)
      (b0 : TextNodeData) (bs : List TextNodeData) (sel : Selection),
      ∃ h rest, (specScan restore lf lu (b0 :: bs) sel ns).1 = OutlineNode.text h :: rest ∧
        h.flags = b0.flags ∧ h.immutable = b0.immutable ∧ h.segmented = b0.segmented ∧
        h.url = b0.url := by
  intro ns
  induction ns with
  | nil =>
    intro restore lf lu b0 bs sel
    cases bs with
    | nil => exact ⟨b0, [], rfl, rfl, rfl, rfl, rfl⟩
    | cons b1 bs' =>
      exact ⟨mergedTextNode b0 (b1 :: bs'), [], rfl, rfl, rfl, rfl, rfl⟩
  | cons n ns' ih =>
    intro restore lf lu b0 bs sel
    cases het : eligibleText n with
    | some t =>
      simp only [specScan, het]
      by_cases hcompat : (lf = none ∨ lf = some t.flags) ∧ (lu = none ∨ lu = t.url)
      · rw [if_pos hcompat]
        exact ih restore (some t.flags) t.url b0 (bs ++ [t]) sel
      · rw [if_neg hcompat]
        cases bs with
        | nil => exact ⟨b0, _, rfl, rfl, rfl, rfl, rfl⟩
        | cons b1 bs' =>
          exact ⟨mergedTextNode b0 (b1 :: bs'), _, rfl, rfl, rfl, rfl, rfl⟩
    | none =>
      simp only [specScan, het]
      cases bs with
      | nil => exact ⟨b0, _, rfl, rfl, rfl, rfl, rfl⟩
      | cons b1 bs' =>
        exact ⟨mergedTextNode b0 (b1 :: bs'), _, rfl, rfl, rfl, rfl, rfl⟩

/-- A closed non-empty batch emits exactly one survivor, sharing the first
batch member's flags, eligibility bits and url. -/
theorem specEmit_head_batch (restore : Bool) (b0 : TextNodeData)
    (batch' : List TextNodeData) (sel : Selection) :
    ∃ S, (specEmit restore (b0 :: batch') sel).1 = [OutlineNode.text S] ∧
      S.flags = b0.flags ∧ S.immutable = b0.immutable ∧ S.segmented = b0.segmented ∧
      S.url = b0.url := by
  cases batch' with
  | nil => exact ⟨b0, rfl, rfl, rfl, rfl, rfl⟩
  | cons b1 bs => exact ⟨mergedTextNode b0 (b1 :: bs), rfl, rfl, rfl, rfl, rfl⟩

/-- When every eligible text node of the input (and of the pending batch)
carries the one url `u`, the scan's output never places two eligible text
nodes with equal flags side by side, and its eligible nodes still all carry
`u`. -/
theorem specScan_out_good (u : Option String) :
    ∀ (ns : List OutlineNode) (batch : List TextNodeData) (lf : Option Nat)
      (lu : Option String) (sel : Selection) (restore : Bool),
      (∀ n ∈ ns, ∀ t, eligibleText n = some t → t.url = u) →
      (∀ t ∈ batch, t.url = u) →
      (∀ t ∈ batch, t.immutable = false ∧ t.segmented = false) →
      (∀ t ∈ batch, lf = some t.flags) →
      (lu = none ∨ lu = u) →
      List.Chain' adjOK (specScan restore lf lu batch sel ns).1 ∧
      (∀ n ∈ (specScan restore lf lu batch sel ns).1, ∀ t,
        eligibleText n = some t → t.url = u) := by
  intro ns
  induction ns with
  | nil =>
    intro batch lf lu sel restore hu hub heb hbf hlu
    cases batch with
    | nil =>
      simp only [specScan, specEmit, List.map_nil]
      exact ⟨List.chain'_nil, fun n hn => absurd hn (List.not_mem_nil n)⟩
    | cons b0 batch' =>
      obtain ⟨S, hem, hSfl, hSim, hSsg, hSur⟩ := specEmit_head_batch restore b0 batch' sel
      have heb0 := heb b0 (List.mem_cons_self _ _)
      simp only [specScan]
      rw [hem]
      constructor
      · exact List.chain'_singleton _
      · intro n hn t ht
        rw [List.mem_singleton] at hn
        subst hn
        have hSi : S.immutable = false := by rw [hSim]; exact heb0.1
        have hSs : S.segmented = false := by rw [hSsg]; exact heb0.2
        rw [eligibleText_of_flags S hSi hSs, Option.some_inj] at ht
        subst ht
        rw [hSur]
        exact hub b0 (List.mem_cons_self _ _)
  | cons n ns' ih =>
    intro batch lf lu sel restore hu hub heb hbf hlu
    have hu' : ∀ m ∈ ns', ∀ t, eligibleText m = some t → t.url = u :=
      fun m hm => hu m (List.mem_cons.2 (Or.inr hm))
    cases het : eligibleText n with
    | some t =>
      simp only [specScan, het]
      have htu : t.url = u := hu n (List.mem_cons_self _ _) t het
      have hte := eligibleText_flags n t het
      by_cases hcompat : (lf = none ∨ lf = some t.flags) ∧ (lu = none ∨ lu = t.url)
      · rw [if_pos hcompat]
        refine ih (batch ++ [t]) (some t.flags) t.url sel restore hu' ?_ ?_ ?_ (Or.inr htu)
        · intro x hx
          rcases List.mem_append.1 hx with h | h
          · exact hub x h
          · rw [List.mem_singleton] at h
            subst h
            exact htu
        · intro x hx
          rcases List.mem_append.1 hx with h | h
          · exact heb x h
          · rw [List.mem_singleton] at h
            subst h
            exact hte
        · intro x hx
          rcases List.mem_append.1 hx with h | h
          · have h1 := hbf x h
            rcases hcompat.1 with h2 | h2
            · rw [h2] at h1
              exact Option.noConfusion h1
            · rw [h2] at h1
              exact h1
          · rw [List.mem_singleton] at h
            subst h
            rfl
      · rw [if_neg hcompat]
        obtain ⟨chainrec, unifrec⟩ := ih [t] (some t.flags) t.url
          (specEmit restore batch sel).2 restore hu'
          (by
            intro x hx
            rw [List.mem_singleton] at hx
            subst hx
            exact htu)
          (by
            intro x hx
            rw [List.mem_singleton] at hx
            subst hx
            exact hte)
          (by
            intro x hx
            rw [List.mem_singleton] at hx
            subst hx
            rfl)
          (Or.inr htu)
        cases batch with
        | nil =>
          simp only [specEmit, List.map_nil, List.nil_append]
          exact ⟨chainrec, unifrec⟩
        | cons b0 batch' =>
          obtain ⟨S, hem, hSfl, hSim, hSsg, hSur⟩ := specEmit_head_batch restore b0 batch' sel
          have heb0 := heb b0 (List.mem_cons_self _ _)
          have hSi : S.immutable = false := by rw [hSim]; exact heb0.1
          have hSs : S.segmented = false := by rw [hSsg]; exact heb0.2
          obtain ⟨h, rest, hreceq, hhfl, hhim, hhsg, hhur⟩ :=
            specScan_head_batch ns' restore (some t.flags) t.url t []
              (specEmit restore (b0 :: batch') sel).2
          have hurlpart : lu = none ∨ lu = t.url := by
            rcases hlu with h' | h'
            · exact Or.inl h'
            · exact Or.inr (by rw [h', htu])
          have hflagpart : ¬(lf = none ∨ lf = some t.flags) := fun hf => hcompat ⟨hf, hurlpart⟩
          have hlfb0 : lf = some b0.flags := hbf b0 (List.mem_cons_self _ _)
          have hflne : b0.flags ≠ t.flags := by
            intro he
            exact hflagpart (Or.inr (by rw [hlfb0, he]))
          rw [hem, hreceq]
          constructor
          · refine List.chain'_cons.2 ⟨?_, ?_⟩
            · intro ta tb hta htb
              rw [eligibleText_of_flags S hSi hSs, Option.some_inj] at hta
              have hhi : h.immutable = false := by rw [hhim]; exact hte.1
              have hhs : h.segmented = false := by rw [hhsg]; exact hte.2
              rw [eligibleText_of_flags h hhi hhs, Option.some_inj] at htb
              subst hta
              subst htb
              rw [hSfl, hhfl]
              exact hflne
            · rw [← hreceq]
              exact chainrec
          · intro m hm t' ht'
            rcases List.mem_cons.1 hm with rfl | hm'
            · rw [eligibleText_of_flags S hSi hSs, Option.some_inj] at ht'
              subst ht'
              rw [hSur]
              exact hub b0 (List.mem_cons_self _ _)
            · refine unifrec m ?_ t' ht'
              rw [hreceq]
              exact hm'
    | none =>
      simp only [specScan, het]
      obtain ⟨chainrec, unifrec⟩ := ih [] none lu (specEmit restore batch sel).2 restore hu'
        (fun x hx => absurd hx (List.not_mem_nil x))
        (fun x hx => absurd hx (List.not_mem_nil x))
        (fun x hx => absurd hx (List.not_mem_nil x)) hlu
      have hadjn : ∀ x, adjOK n x :=
        fun x ta tb hta htb => absurd (het.symm.trans hta) (fun h => Option.noConfusion h)
      have hadjxn : ∀ x, adjOK x n :=
        fun x ta tb hta htb => absurd (het.symm.trans htb) (fun h => Option.noConfusion h)
      have hchainn : List.Chain' adjOK (n :: (specScan restore none lu []
          (specEmit restore batch sel).2 ns').1) :=
        List.chain'_cons'.2 ⟨fun y _ => hadjn y, chainrec⟩
      have hunifn : ∀ m ∈ n :: (specScan restore none lu []
          (specEmit restore batch sel).2 ns').1, ∀ t', eligibleText m = some t' → t'.url = u := by
        intro m hm t' ht'
        rcases List.mem_cons.1 hm with rfl | hm'
        · exact absurd (het.symm.trans ht') (fun h => Option.noConfusion h)
        · exact unifrec m hm' t' ht'
      cases batch with
      | nil =>
        simp only [specEmit, List.map_nil, List.nil_append]
        exact ⟨hchainn, hunifn⟩
      | cons b0 batch' =>
        obtain ⟨S, hem, hSfl, hSim, hSsg, hSur⟩ := specEmit_head_batch restore b0 batch' sel
        have heb0 := heb b0 (List.mem_cons_self _ _)
        have hSi : S.immutable = false := by rw [hSim]; exact heb0.1
        have hSs : S.segmented = false := by rw [hSsg]; exact heb0.2
        rw [hem]
        constructor
        · show List.Chain' adjOK (OutlineNode.text S :: n :: (specScan restore none lu []
            (specEmit restore (b0 :: batch') sel).2 ns').1)
          exact List.chain'_cons.2 ⟨hadjxn _, hchainn⟩
        · intro m hm t' ht'
          rcases List.mem_cons.1 hm with rfl | hm'
          · rw [eligibleText_of_flags S hSi hSs, Option.some_inj] at ht'
            subst ht'
            rw [hSur]
            exact hub b0 (List.mem_cons_self _ _)
          · exact hunifn m hm' t' ht'

/-! ## Claim C8: the selection invariant -/

/-- If the pure mirror reports no batch of length above one, the scan loop
never calls the merge routine and returns the state unchanged. -/
theorem normalizeLoop_no_merge :
    ∀ (ns : List OutlineNode) (restore : Bool) (st : EditorState) (lf : Option Nat)
      (lu : Option String) (toNorm : List NodeKey),
      (∀ n ∈ ns, st.nodeMap n.key = some n) →
      anyMergeScan lf lu toNorm.length ns = false →
      normalizeLoop restore st lf lu toNorm (ns.map OutlineNode.key) = Except.ok st := by
  intro ns
  induction ns with
  | nil =>
    intro restore st lf lu toNorm hres hscan
    simp only [anyMergeScan, decide_eq_false_iff_not] at hscan
    simp only [List.map_nil, normalizeLoop]
    rw [if_neg hscan]
  | cons n ns' ih =>
    intro restore st lf lu toNorm hres hscan
    have hn := hres n (by simp)
    simp only [List.map_cons, normalizeLoop, hn]
    simp only [anyMergeScan] at hscan
    cases het : eligibleText n with
    | some t =>
      simp only [het] at hscan ⊢
      by_cases hcompat : (lf = none ∨ lf = some t.flags) ∧ (lu = none ∨ lu = t.url)
      · rw [if_pos hcompat]
        rw [if_pos hcompat] at hscan
        refine ih restore st _ _ (toNorm ++ [n.key]) (fun m hm => hres m (by simp [hm])) ?_
        rw [List.length_append]
        exact hscan
      · rw [if_neg hcompat]
        rw [if_neg hcompat] at hscan
        rw [Bool.or_eq_false_iff] at hscan
        obtain ⟨h1, h2⟩ := hscan
        rw [decide_eq_false_iff_not] at h1
        rw [if_neg h1]
        exact ih restore st _ _ [n.key] (fun m hm => hres m (by simp [hm])) h2
    | none =>
      simp only [het] at hscan ⊢
      rw [Bool.or_eq_false_iff] at hscan
      obtain ⟨h1, h2⟩ := hscan
      rw [decide_eq_false_iff_not] at h1
      rw [if_neg h1]
      exact ih restore st none lu [] (fun m hm => hres m (by simp [hm])) h2

/-- If the pure mirror reports a batch of length above one and no selection
is active, the scan loop fails with the selection invariant (regardless of
`restoreSelection`). -/
theorem normalizeLoop_merge_noselection :
    ∀ (ns : List OutlineNode) (restore : Bool) (st : EditorState) (lf : Option Nat)
      (lu : Option String) (toNorm : List NodeKey),
      st.selection = none →
      (∀ n ∈ ns, st.nodeMap n.key = some n) →
      anyMergeScan lf lu toNorm.length ns = true →
      normalizeLoop restore st lf lu toNorm (ns.map OutlineNode.key) =
        Except.error (.invariantViolation "combineAdjacentTextNodes: selection not found") := by
  intro ns
  induction ns with
  | nil =>
    intro restore st lf lu toNorm hsel hres hscan
    simp only [anyMergeScan, decide_eq_true_eq] at hscan
    simp only [List.map_nil, normalizeLoop]
    rw [if_pos hscan]
    unfold combineAdjacentTextNodes
    rw [hsel]
  | cons n ns' ih =>
    intro restore st lf lu toNorm hsel hres hscan
    have hn := hres n (by simp)
    simp only [List.map_cons, normalizeLoop, hn]
    simp only [anyMergeScan] at hscan
    cases het : eligibleText n with
    | some t =>
      simp only [het] at hscan ⊢
      by_cases hcompat : (lf = none ∨ lf = some t.flags) ∧ (lu = none ∨ lu = t.url)
      · rw [if_pos hcompat]
        rw [if_pos hcompat] at hscan
        refine ih restore st _ _ (toNorm ++ [n.key]) hsel
          (fun m hm => hres m (by simp [hm])) ?_
        rw [List.length_append]
        exact hscan
      · rw [if_neg hcompat]
        rw [if_neg hcompat] at hscan
        by_cases hlen : toNorm.length > 1
        · rw [if_pos hlen]
          have hc : combineAdjacentTextNodes st toNorm restore =
              Except.error (.invariantViolation "combineAdjacentTextNodes: selection not found") := by
            unfold combineAdjacentTextNodes
            rw [hsel]
          rw [hc]
        · rw [if_neg hlen]
          rw [decide_eq_false hlen, Bool.false_or] at hscan
          exact ih restore st _ _ [n.key] hsel (fun m hm => hres m (by simp [hm])) hscan
    | none =>
      simp only [het] at hscan ⊢
      by_cases hlen : toNorm.length > 1
      · rw [if_pos hlen]
        have hc : combineAdjacentTextNodes st toNorm restore =
            Except.error (.invariantViolation "combineAdjacentTextNodes: selection not found") := by
          unfold combineAdjacentTextNodes
          rw [hsel]
        rw [hc]
      · rw [if_neg hlen]
        rw [decide_eq_false hlen, Bool.false_or] at hscan
        exact ih restore st none lu [] hsel (fun m hm => hres m (by simp [hm])) hscan

/-- Claim C8 (amended): normalization requires a selection exactly when it
attempts a merge, regardless of `restoreSelection`: when no batch of length
above one arises, it succeeds and leaves the state unchanged even with no
active selection; when a merge is attempted with no active selection it
fails with the selection invariant even when `restoreSelection` is unset. -/
theorem C8_selection_invariant
    (st : EditorState) (key : NodeKey) (b : BlockNodeData)
    (hro : st.readOnly = false)
    (hB : st.nodeMap key = some (OutlineNode.block b))
    (hcoh : ∀ ck ∈ b.children, ∀ n, st.nodeMap ck = some n → n.key = ck) :
    ∀ restore,
      (anyMergeScan none none 0 (getChildren st key) = false →
        normalizeTextNodes st restore key = Except.ok st) ∧
      (st.selection = none → anyMergeScan none none 0 (getChildren st key) = true →
        normalizeTextNodes st restore key =
          Except.error (.invariantViolation "combineAdjacentTextNodes: selection not found")) := by
  intro restore
  have hifro : ¬(st.readOnly = true) := by simp [hro]
  have hres : ∀ n ∈ getChildren st key, st.nodeMap n.key = some n := by
    intro n hn
    have hgc : getChildren st key = b.children.filterMap st.nodeMap := by
      simp only [getChildren, hB]
      exact resolveKeys_eq_filterMap st b.children
    rw [hgc] at hn
    obtain ⟨ck, hck, hckres⟩ := List.mem_filterMap.1 hn
    rw [hcoh ck hck n hckres]
    exact hckres
  constructor
  · intro hscan
    unfold normalizeTextNodes
    rw [if_neg hifro]
    exact normalizeLoop_no_merge (getChildren st key) restore st none none [] hres hscan
  · intro hsel hscan
    unfold normalizeTextNodes
    rw [if_neg hifro]
    exact normalizeLoop_merge_noselection (getChildren st key) restore st none none []
      hsel hres hscan

/-- Witness for C8: with no active selection, the incompatible pair in
`stC8b` normalizes to an unchanged state, while the mergeable pair in
`stC8` hits the selection invariant although `restoreSelection` is unset. -/
theorem C8_witness :
    normalizeTextNodes stC8b false 1 = Except.ok stC8b ∧
    normalizeTextNodes stC8 false 1 =
      Except.error (.invariantViolation "combineAdjacentTextNodes: selection not found") :=
  ⟨((C8_selection_invariant stC8b 1 ⟨1, none, 0, [2, 3]⟩ (by decide) (by decide)
      (by
        intro ck hck n hn
        simp only [List.mem_cons, List.not_mem_nil, or_false] at hck
        rcases hck with rfl | rfl
        · have h2 : stC8b.nodeMap 2 = some (mkText 2 (some 1) "a" 0 none) := by decide
          rw [h2, Option.some.injEq] at hn
          subst hn
          decide
        · have h3 : stC8b.nodeMap 3 = some (mkText 3 (some 1) "b" 1 none) := by decide
          rw [h3, Option.some.injEq] at hn
          subst hn
          decide)) false).1 (by decide),
   ((C8_selection_invariant stC8 1 ⟨1, none, 0, [2, 3]⟩ (by decide) (by decide)
      (by
        intro ck hck n hn
        simp only [List.mem_cons, List.not_mem_nil, or_false] at hck
        rcases hck with rfl | rfl
        · have h2 : stC8.nodeMap 2 = some (mkText 2 (some 1) "a" 0 none) := by decide
          rw [h2, Option.some.injEq] at hn
          subst hn
          decide
        · have h3 : stC8.nodeMap 3 = some (mkText 3 (some 1) "b" 0 none) := by decide
          rw [h3, Option.some.injEq] at hn
          subst hn
          decide)) false).2 (by decide) (by decide)⟩

/-- On a child list whose eligible nodes all carry the url `u` and never
place equal flags side by side, the scan closes no batch of length above
one: a rescan is merge-free. -/
theorem anyMergeScan_false_of_chain (u : Option String) :
    ∀ (ns : List OutlineNode) (lf : Option Nat) (lu : Option String) (batchLen : Nat),
      (∀ n ∈ ns, ∀ t, eligibleText n = some t → t.url = u) →
      (lu = none ∨ lu = u) →
      List.Chain' adjOK ns →
      batchLen ≤ 1 →
      (lf = none → batchLen = 0) →
      (∀ n ns', ns = n :: ns' → ∀ t, eligibleText n = some t →
        lf = none ∨ lf ≠ some t.flags) →
      anyMergeScan lf lu batchLen ns = false := by
  intro ns
  induction ns with
  | nil =>
    intro lf lu bl _ _ _ hl _ _
    simp only [anyMergeScan, decide_eq_false_iff_not]
    omega
  | cons n ns' ih =>
    intro lf lu bl hu hlu hchain hl hl0 hhead
    have hu' : ∀ m ∈ ns', ∀ t, eligibleText m = some t → t.url = u :=
      fun m hm => hu m (List.mem_cons.2 (Or.inr hm))
    cases het : eligibleText n with
    | some t =>
      simp only [anyMergeScan, het]
      have htu := hu n (List.mem_cons_self _ _) t het
      have headarg : ∀ m ms', ns' = m :: ms' → ∀ tm, eligibleText m = some tm →
          (some t.flags : Option Nat) = none ∨ (some t.flags : Option Nat) ≠ some tm.flags := by
        intro m ms' hms tm htm
        right
        intro hcontra
        rw [hms] at hchain
        exact (List.chain'_cons.1 hchain).1 t tm het htm (Option.some_inj.1 hcontra)
      cases lf with
      | none =>
        rw [if_pos ⟨Or.inl rfl, by
          rcases hlu with h | h
          · exact Or.inl h
          · exact Or.inr (h.trans htu.symm)⟩]
        have hbl0 := hl0 rfl
        exact ih (some t.flags) t.url (bl + 1) hu' (Or.inr htu) hchain.tail (by omega)
          (fun h => Option.noConfusion h) headarg
      | some f =>
        have hne : (some f : Option Nat) ≠ some t.flags := by
          rcases hhead n ns' rfl t het with h | h
          · exact Option.noConfusion h
          · exact h
        rw [if_neg (fun hc => hc.1.elim (fun h => Option.noConfusion h) hne)]
        rw [decide_eq_false (by omega), Bool.false_or]
        exact ih (some t.flags) t.url 1 hu' (Or.inr htu) hchain.tail (by omega)
          (fun h => Option.noConfusion h) headarg
    | none =>
      simp only [anyMergeScan, het]
      rw [decide_eq_false (by omega), Bool.false_or]
      exact ih none lu 0 hu' hlu hchain.tail (by omega) (fun _ => rfl)
        (fun m ms' hms tm htm => Or.inl rfl)

/-- Claim C7 (amended): on a locally well-formed block all of whose eligible
text children carry one common url, normalization is idempotent — the first
pass succeeds, and running it again on the result changes nothing (in
particular the child list is identical after the second run).  (Without the
common-url hypothesis a second pass can merge further, because the scan's
`lastURL` reference conflates "unset" with a `null` url.) -/
theorem C7_idempotent (st : EditorState) (key : NodeKey) (b : BlockNodeData)
    (sel : Selection) (restore : Bool) (u : Option String)
    (hwf : WFBlock st key b) (hro : st.readOnly = false)
    (hsel : st.selection = some sel)
    (huni : ∀ n ∈ getChildren st key, ∀ t, eligibleText n = some t → t.url = u) :
    ∃ st1, normalizeTextNodes st restore key = Except.ok st1 ∧
      normalizeTextNodes st1 restore key = Except.ok st1 := by
  obtain ⟨st1, hok, hB1, hgc1, hsel1, hd1, hro1, hnk1, hres1⟩ :=
    normalizeTextNodes_spec st key b sel restore hwf hro hsel
  refine ⟨st1, hok, ?_⟩
  obtain ⟨hchain, hunif⟩ := specScan_out_good u (getChildren st key) [] none none sel restore
    huni (fun t ht => absurd ht (List.not_mem_nil t))
    (fun t ht => absurd ht (List.not_mem_nil t))
    (fun t ht => absurd ht (List.not_mem_nil t)) (Or.inl rfl)
  have hscan : anyMergeScan none none 0
      ((specScan restore none none [] sel (getChildren st key)).1) = false :=
    anyMergeScan_false_of_chain u _ none none 0 hunif (Or.inl rfl) hchain
      (by omega) (fun _ => rfl) (fun m ms' hms tm htm => Or.inl rfl)
  unfold normalizeTextNodes
  rw [if_neg (by simp [hro1, hro]), hgc1]
  exact normalizeLoop_no_merge _ restore st1 none none [] hres1 hscan

/-- Witness for C7 at `stC2ex`, whose eligible text children all have url
`none`: the first normalization merges the first two children and a second
run returns its input unchanged. -/
theorem C7_witness :
    ∃ st1, normalizeTextNodes stC2ex false 1 = Except.ok st1 ∧
      normalizeTextNodes st1 false 1 = Except.ok st1 := by
  have hcohC7 : ∀ ck ∈ [2, 3, 4], ∀ n : OutlineNode,
      stC2ex.nodeMap ck = some n → n.key = ck := by
    intro ck hck n hn
    simp only [List.mem_cons, List.not_mem_nil, or_false] at hck
    rcases hck with rfl | rfl | rfl
    · have h2 : stC2ex.nodeMap 2 = some (mkText 2 (some 1) "ab" 0 none) := by decide
      rw [h2, Option.some.injEq] at hn
      subst hn
      decide
    · have h3 : stC2ex.nodeMap 3 = some (mkText 3 (some 1) "cd" 0 none) := by decide
      rw [h3, Option.some.injEq] at hn
      subst hn
      decide
    · have h4 : stC2ex.nodeMap 4 = some (mkText 4 (some 1) "ef" 1 none) := by decide
      rw [h4, Option.some.injEq] at hn
      subst hn
      decide
  have hparC7 : ∀ ck ∈ [2, 3, 4], ∀ t : TextNodeData,
      stC2ex.nodeMap ck = some (OutlineNode.text t) → t.parent = some 1 := by
    intro ck hck t ht
    simp only [List.mem_cons, List.not_mem_nil, or_false] at hck
    rcases hck with rfl | rfl | rfl
    · have h2 : stC2ex.nodeMap 2 = some (mkText 2 (some 1) "ab" 0 none) := by decide
      rw [h2, mkText, Option.some.injEq, OutlineNode.text.injEq] at ht
      rw [← ht]
    · have h3 : stC2ex.nodeMap 3 = some (mkText 3 (some 1) "cd" 0 none) := by decide
      rw [h3, mkText, Option.some.injEq, OutlineNode.text.injEq] at ht
      rw [← ht]
    · have h4 : stC2ex.nodeMap 4 = some (mkText 4 (some 1) "ef" 1 none) := by decide
      rw [h4, mkText, Option.some.injEq, OutlineNode.text.injEq] at ht
      rw [← ht]
  have huniC7 : ∀ n ∈ getChildren stC2ex 1, ∀ t : TextNodeData,
      eligibleText n = some t → t.url = none := by
    intro n hn t ht
    have hg : getChildren stC2ex 1 = [mkText 2 (some 1) "ab" 0 none,
        mkText 3 (some 1) "cd" 0 none, mkText 4 (some 1) "ef" 1 none] := by decide
    rw [hg] at hn
    simp only [List.mem_cons, List.not_mem_nil, or_false] at hn
    rcases hn with rfl | rfl | rfl
    · have h2 : eligibleText (mkText 2 (some 1) "ab" 0 none) =
          some ⟨2, some 1, 0, "ab".toList, none, false, false⟩ := by decide
      rw [h2, Option.some.injEq] at ht
      subst ht
      rfl
    · have h3 : eligibleText (mkText 3 (some 1) "cd" 0 none) =
          some ⟨3, some 1, 0, "cd".toList, none, false, false⟩ := by decide
      rw [h3, Option.some.injEq] at ht
      subst ht
      rfl
    · have h4 : eligibleText (mkText 4 (some 1) "ef" 1 none) =
          some ⟨4, some 1, 1, "ef".toList, none, false, false⟩ := by decide
      rw [h4, Option.some.injEq] at ht
      subst ht
      rfl
  exact C7_idempotent stC2ex 1 ⟨1, none, 0, [2, 3, 4]⟩ selDummy false none
    ⟨by decide, by decide, by decide, hcohC7, by decide, hparC7⟩ (by decide) (by decide) huniC7

/-! ## Claim C9 -/

/-- Claim C9 (amended): `getChildren` resolves each stored child key of the
latest block version through the registry, in order, silently skipping keys
that fail to resolve and returning exactly the live node objects; but
`getFirstChild`/`getLastChild` resolve only the literal first/last stored
key, returning `none` when that key fails to resolve (no error, and no
skipping to the next live child). -/
theorem C9_read_tolerance (st : EditorState) (key : NodeKey) (b : BlockNodeData)
    (hB : st.nodeMap key = some (OutlineNode.block b)) :
    getChildren st key = b.children.filterMap st.nodeMap ∧
    getFirstChild st key = b.children.head?.bind st.nodeMap ∧
    getLastChild st key = b.children.getLast?.bind st.nodeMap := by
  refine ⟨?_, ?_, ?_⟩
  · simp only [getChildren, hB]
    exact resolveKeys_eq_filterMap st b.children
  · simp only [getFirstChild, hB]
    cases b.children <;> simp
  · simp only [getLastChild, hB]
    cases h : b.children.getLast? <;> simp [h]

/-- Witness for C9 at `stC9` (first stored key dangling, second live). -/
theorem C9_witness :
    getChildren stC9 1 = (⟨1, none, 0, [5, 6]⟩ : BlockNodeData).children.filterMap stC9.nodeMap ∧
    getFirstChild stC9 1 = (⟨1, none, 0, [5, 6]⟩ : BlockNodeData).children.head?.bind stC9.nodeMap ∧
    getLastChild stC9 1 = (⟨1, none, 0, [5, 6]⟩ : BlockNodeData).children.getLast?.bind stC9.nodeMap :=
  C9_read_tolerance stC9 1 ⟨1, none, 0, [5, 6]⟩ (by decide)

end Outline
